import Mathlib

/-!
Verification of the addict nested-dictionary container (src/addict/addict.py).

Two embeddings of the same source are developed:

1. A pure value model (`PVal` and the functions below): Python values are
   modelled as trees, and each mutating method of the `Dict` class is
   modelled as a function from the old value of the object to the new one.
   Keys are embedded as strings (the spec allows string or other hashable
   scalar keys; every claim is about string keys).

2. A heap model (`HVal`, `Obj`, `Heap`): Python objects live at addresses,
   so aliasing, in-place mutation and sharing between containers are
   represented faithfully. Used for the claims about autovivification
   linkage and copy disconnection.
-/

/-- A Python value as stored in or passed to the addict `Dict` class:
scalars, the addict `Dict` itself (`node`), a plain `dict` (`raw`),
a `list` (`arr`) and a `tuple` (`tup`). -/
inductive PVal where
  | vint (i : Int)
  | vstr (s : String)
  | vbool (b : Bool)
  | vnone
  | node (es : List (String × PVal))
  | raw (es : List (String × PVal))
  | arr (xs : List PVal)
  | tup (xs : List PVal)

/-- `d[k]` lookup on an association list representing a Python dict
(first match; Python dicts never hold a key twice). -/
def getEntry : List (String × PVal) → String → Option PVal
  | [], _ => none
  | (k', v') :: rest, k => if k' = k then some v' else getEntry rest k

/-- Membership test `k in d` (non-mutating). -/
def hasKey : List (String × PVal) → String → Bool
  | [], _ => false
  | (k', _) :: rest, k => if k' = k then true else hasKey rest k

/-- Plain store `d[k] = v` on a Python dict: replacing an existing key keeps
its position (insertion-order preservation), a new key is appended. -/
def setEntry : List (String × PVal) → String → PVal → List (String × PVal)
  | [], k, v => [(k, v)]
  | (k', v') :: rest, k, v =>
      if k' = k then (k, v) :: rest else (k', v') :: setEntry rest k v

/-- Python truthiness (`bool(value)`) restricted to the embedded values:
zero, empty string, `False`, `None` and empty containers are falsy. -/
def falsy : PVal → Bool
  | .vint i => i == 0
  | .vstr s => s == ""
  | .vbool b => !b
  | .vnone => true
  | .node es => es.isEmpty
  | .raw es => es.isEmpty
  | .arr xs => xs.isEmpty
  | .tup xs => xs.isEmpty

/-- Python `value == 0`: true for the integer zero and for `False`
(in Python `False == 0` holds). -/
def eqZero : PVal → Bool
  | .vint i => i == 0
  | .vbool b => !b
  | _ => false

/-- `isinstance(value, list)`. -/
def isList : PVal → Bool
  | .arr _ => true
  | _ => false

mutual
/-- `Dict._hook` (addict.py lines 76-87): a dict (plain or addict) becomes a
freshly built addict `Dict` via `cls(item)`, which inserts every entry with
`self[key] = val` and therefore hooks each value again; a list or tuple is
rebuilt with every element hooked; anything else passes through. -/
def hook : PVal → PVal
  | .node es => .node (hookPairs es [])
  | .raw es => .node (hookPairs es [])
  | .arr xs => .arr (hookList xs)
  | .tup xs => .tup (hookList xs)
  | v => v

/-- Elementwise `_hook` over the elements of a list or tuple. -/
def hookList : List PVal → List PVal
  | [] => []
  | x :: xs => hook x :: hookList xs

/-- The loop of `Dict.__init__` over the items of a dict argument:
`self[key] = val` for each item in order, i.e. a hooked store. -/
def hookPairs : List (String × PVal) → List (String × PVal) → List (String × PVal)
  | [], acc => acc
  | (k, v) :: rest, acc => hookPairs rest (setEntry acc k (hook v))
end

/-- `Dict.__setitem__` (addict.py lines 67-74): store `_hook(value)`. -/
def setitem (es : List (String × PVal)) (k : String) (v : PVal) :
    List (String × PVal) :=
  setEntry es k (hook v)

/-- `Dict.__getitem__` (addict.py lines 92-102), pure form: a present key
returns its value and leaves the dict unchanged; an absent key first runs
`self[name] = {}` (which stores `_hook` of the empty dict, a fresh empty
addict `Dict`) and then returns the stored value. -/
def getitem (es : List (String × PVal)) (k : String) :
    PVal × List (String × PVal) :=
  match getEntry es k with
  | some v => (v, es)
  | none => (hook (PVal.raw []), setitem es k (PVal.raw []))

/-- The attribute names defined on the `Dict` class: the members of its own
class body (addict.py) together with the members inherited from `dict`;
`hasattr(Dict, name)` is embedded as membership in this list. -/
def dictMembers : List String :=
  ["__init__", "__setattr__", "__setitem__", "_hook", "__getattr__",
   "__getitem__", "__delattr__", "_re_pattern", "__dir__",
   "_ipython_display_", "_repr_html_", "prune", "_prune_iter", "to_dict",
   "copy", "update", "extend",
   "keys", "values", "items", "get", "pop", "popitem", "clear",
   "setdefault", "fromkeys",
   "__contains__", "__len__", "__iter__", "__eq__", "__ne__",
   "__delitem__", "__class__", "__doc__", "__hash__", "__repr__", "__str__"]

/-- The Python exceptions the source can raise, plus `fuelErr`, an artifact
of the model marking exhausted recursion fuel (never reached by the source
semantics when enough fuel is supplied). -/
inductive Err where
  | typeErr
  | valueErr
  | attrErr
  | keyErr
  | indexErr
  | fuelErr

/-- `Dict.__setattr__` (addict.py lines 56-65): an attribute assignment to a
name already defined on the `Dict` class raises `AttributeError`; otherwise
it is exactly `self[name] = value`. -/
def setattrE (es : List (String × PVal)) (k : String) (v : PVal) :
    Except Err (List (String × PVal)) :=
  if k ∈ dictMembers then .error .attrErr else .ok (setitem es k v)

/-- The dict branch of `Dict.__init__`: `self[key] = val` for every item. -/
def insertItems : List (String × PVal) → List (String × PVal) →
    List (String × PVal)
  | acc, [] => acc
  | acc, (k, v) :: rest => insertItems (setitem acc k v) rest

/-- Unpacking `key, val = element` in the pairs branch of `Dict.__init__`:
the element must be a two-element list or tuple whose first component is a
(string) key; a wrong length raises `ValueError`, a non-sequence raises
`TypeError`, a non-string key is outside the string-key embedding. -/
def pairOf : PVal → Except Err (String × PVal)
  | .arr [PVal.vstr k, v] => .ok (k, v)
  | .tup [PVal.vstr k, v] => .ok (k, v)
  | .arr [_, _] => .error .keyErr
  | .tup [_, _] => .error .keyErr
  | .arr _ => .error .valueErr
  | .tup _ => .error .valueErr
  | _ => .error .typeErr

/-- The sequence-of-pairs branch of `Dict.__init__`:
`for key, val in arg: self[key] = val`. -/
def insertPairList (acc : List (String × PVal)) :
    List PVal → Except Err (List (String × PVal))
  | [] => .ok acc
  | x :: xs => do
      let (k, v) ← pairOf x
      insertPairList (setitem acc k v) xs

/-- One positional argument of `Dict.__init__` (addict.py lines 38-51):
falsy arguments are skipped; a dict inserts its items; a tuple whose first
element is not a tuple inserts the single pair `(arg[0], arg[1])` (a
one-element tuple raises `IndexError` from `arg[1]`); any other list or
tuple is iterated as pairs; anything else raises `TypeError`. -/
def constructArg (acc : List (String × PVal)) (a : PVal) :
    Except Err (List (String × PVal)) :=
  if falsy a then .ok acc
  else match a with
  | .node es => .ok (insertItems acc es)
  | .raw es => .ok (insertItems acc es)
  | .tup xs =>
      match xs with
      | [] => .ok acc
      | x :: _ =>
          match x with
          | .tup _ => insertPairList acc xs
          | _ =>
              match xs with
              | _ :: v :: _ =>
                  match x with
                  | .vstr k => .ok (setitem acc k v)
                  | _ => .error .keyErr
              | _ => .error .indexErr
  | .arr xs => insertPairList acc xs
  | _ => .error .typeErr

/-- All positional arguments of `Dict.__init__`, in order. -/
def constructArgs : List PVal → List (String × PVal) →
    Except Err (List (String × PVal))
  | [], acc => .ok acc
  | a :: rest, acc => do
      let acc' ← constructArg acc a
      constructArgs rest acc'

/-- `Dict(*args, **kwargs)` (addict.py lines 32-54): positional arguments
first, then the named fields, each inserted with `self[key] = val`. -/
def construct (args : List PVal) (kws : List (String × PVal)) :
    Except Err PVal := do
  let acc ← constructArgs args []
  .ok (.node (insertItems acc kws))

mutual
/-- `Dict.to_dict` (addict.py lines 207-222) over the items of a `Dict`:
a `Dict` value is converted recursively, a list or tuple value is rebuilt
with only its addict-`Dict` elements converted (elements that are not
`Dict` instances, including nested lists and tuples, pass through
unchanged), anything else passes through. -/
def toDictEntries : List (String × PVal) → List (String × PVal)
  | [] => []
  | (k, v) :: rest => (k, toDictVal v) :: toDictEntries rest

/-- Conversion of one value by `to_dict`. -/
def toDictVal : PVal → PVal
  | .node es => .raw (toDictEntries es)
  | .arr xs => .arr (toDictElems xs)
  | .tup xs => .tup (toDictElems xs)
  | v => v

/-- `item.to_dict() if isinstance(item, type(self)) else item`
for each element of a list or tuple value. -/
def toDictElems : List PVal → List PVal
  | [] => []
  | x :: xs =>
      (match x with
       | .node es => .raw (toDictEntries es)
       | y => y) :: toDictElems xs
end

/-- `Dict.to_dict` on a whole `Dict`: the result is a plain dict. -/
def toDict (es : List (String × PVal)) : PVal :=
  .raw (toDictEntries es)

/-- `Dict.copy` (addict.py lines 224-231): `Dict(self.to_dict())`. -/
def copyP (es : List (String × PVal)) : Except Err PVal :=
  construct [toDict es] []

/-- `dict.update` of the built-in dict class: a plain store per item, with
no hook and no recursion (only reachable when a value of the receiver is a
plain dict, which the coercion closure rules out for real addict objects). -/
def plainUpdate : List (String × PVal) → List (String × PVal) →
    List (String × PVal)
  | es, [] => es
  | es, (k, v) :: rest => plainUpdate (setEntry es k v) rest

mutual
/-- One item `(k, v)` of the argument of `Dict.update` (addict.py lines
233-242): if `k` is absent in self or either the current value or `v` is
not a dict, overwrite with `self[k] = v` (a hooked store); otherwise
recurse with `self[k].update(v)` (in place, so the entry keeps its
position); a plain-dict current value dispatches to `dict.update`. -/
def updateOne (es : List (String × PVal)) (k : String) :
    PVal → List (String × PVal)
  | .node ves =>
      match getEntry es k with
      | some (.node ses) => setEntry es k (.node (updateEntries ses ves))
      | some (.raw ses) => setEntry es k (.raw (plainUpdate ses ves))
      | _ => setitem es k (.node ves)
  | .raw ves =>
      match getEntry es k with
      | some (.node ses) => setEntry es k (.node (updateEntries ses ves))
      | some (.raw ses) => setEntry es k (.raw (plainUpdate ses ves))
      | _ => setitem es k (.raw ves)
  | v => setitem es k v

/-- `Dict.update` over the items of the argument, in order. -/
def updateEntries : List (String × PVal) → List (String × PVal) →
    List (String × PVal)
  | es, [] => es
  | es, (k, v) :: rest => updateEntries (updateOne es k v) rest
end

mutual
/-- The recursive content step shared by `Dict.prune` and
`Dict._prune_iter`: a `Dict` is pruned in place, a list or tuple is rebuilt
by `_prune_iter` (a tuple converted back to a tuple), anything else is
returned unchanged; the caller inspects the result to decide deletion. -/
def pruneVal : Bool → Bool → PVal → PVal
  | pz, pel, .node es => .node (pruneEntries pz pel es)
  | pz, pel, .arr xs => .arr (pruneIter pz pel xs)
  | pz, pel, .tup xs => .tup (pruneIter pz pel xs)
  | _, _, v => v

/-- `Dict.prune` (addict.py lines 137-185) over the items, in order: a value
that is falsy, not equal to zero unless `pruneZero` is set, and not a list
is deleted; a `Dict` value is pruned in place and deleted if it came out
empty; a list or tuple value is rebuilt by `_prune_iter` and deleted when
the rebuilt sequence is empty and `pruneEmptyList` is set, else stored back
(a tuple as a tuple) through `self[key] = ...`, i.e. a hooked store; any
other value is kept. -/
def pruneEntries : Bool → Bool → List (String × PVal) →
    List (String × PVal)
  | _, _, [] => []
  | pz, pel, (k, v) :: rest =>
      if falsy v && (!eqZero v || pz) && !isList v then
        pruneEntries pz pel rest
      else
        match pruneVal pz pel v with
        | .node es' =>
            if es'.isEmpty then pruneEntries pz pel rest
            else (k, .node es') :: pruneEntries pz pel rest
        | .arr ys =>
            if ys.isEmpty && pel then pruneEntries pz pel rest
            else (k, hook (.arr ys)) :: pruneEntries pz pel rest
        | .tup ys =>
            if ys.isEmpty && pel then pruneEntries pz pel rest
            else (k, hook (.tup ys)) :: pruneEntries pz pel rest
        | w => (k, w) :: pruneEntries pz pel rest

/-- `Dict._prune_iter` (addict.py lines 187-205): zeros are dropped when
`pruneZero` is set; a `Dict` element is pruned and kept only if non-empty;
a list or tuple element is rebuilt recursively and kept when non-empty or
when `pruneEmptyList` is off; anything else is kept. -/
def pruneIter : Bool → Bool → List PVal → List PVal
  | _, _, [] => []
  | pz, pel, x :: xs =>
      if eqZero x && pz then pruneIter pz pel xs
      else
        match pruneVal pz pel x with
        | .node es' =>
            if es'.isEmpty then pruneIter pz pel xs
            else .node es' :: pruneIter pz pel xs
        | .arr ys' =>
            if !ys'.isEmpty || !pel then .arr ys' :: pruneIter pz pel xs
            else pruneIter pz pel xs
        | .tup ys' =>
            if !ys'.isEmpty || !pel then .tup ys' :: pruneIter pz pel xs
            else pruneIter pz pel xs
        | w => w :: pruneIter pz pel xs
end

/-- The exact runtime type of a value, as compared by
`type(extended) != type(arg)` in `Dict.extend`: the addict `Dict` type and
the plain `dict` type are distinct, as are `list` and `tuple`. -/
inductive PyTy where
  | tint
  | tstr
  | tbool
  | tnone
  | taddict
  | tdict
  | tlist
  | ttuple
deriving DecidableEq

/-- `type(value)`. -/
def pyType : PVal → PyTy
  | .vint _ => .tint
  | .vstr _ => .tstr
  | .vbool _ => .tbool
  | .vnone => .tnone
  | .node _ => .taddict
  | .raw _ => .tdict
  | .arr _ => .tlist
  | .tup _ => .ttuple

mutual
/-- The accumulator loop of `Dict.extend` (addict.py lines 363-416), after
option decoding, over the remaining sources. The accumulator is `none` for
the Python `None` and otherwise holds the raw intermediate value (a plain
dict built by the dict branch, a list, or a scalar — never an addict `Dict`
and never a tuple). Fuel is consumed at each step; the source recursion is
bounded, so a large enough fuel always suffices. -/
def extendLoop : Nat → Bool → String → List PVal → Option PVal →
    Except Err (Option PVal)
  | _, _, _, [], acc => .ok acc
  | 0, _, _, _ :: _, _ => .error .fuelErr
  | f + 1, deep, la, arg :: rest, acc =>
      -- reset the accumulator when the exact runtime types differ
      let acc :=
        match acc with
        | some e => if pyType e ≠ pyType arg then none else some e
        | none => none
      match arg with
      | .node aes => do
          let e0 := match acc with | some (.raw es) => es | _ => []
          let es' ← extendDictItems f deep la e0 aes
          extendLoop f deep la rest (some (.raw es'))
      | .raw aes => do
          let e0 := match acc with | some (.raw es) => es | _ => []
          let es' ← extendDictItems f deep la e0 aes
          extendLoop f deep la rest (some (.raw es'))
      | .arr xs => do
          let e' ← extendSeq f deep la xs acc
          extendLoop f deep la rest (some (.arr e'))
      | .tup xs => do
          -- a tuple source is converted to a list before processing
          let e' ← extendSeq f deep la xs acc
          extendLoop f deep la rest (some (.arr e'))
      | sc => extendLoop f deep la rest (some sc)

/-- The dict branch of `Dict.extend`: plain stores into the plain-dict
accumulator; with `deep` an existing key recurses through
`self.extend(extended[item], arg[item], **kwargs)`. -/
def extendDictItems : Nat → Bool → String → List (String × PVal) →
    List (String × PVal) → Except Err (List (String × PVal))
  | _, _, _, acc, [] => .ok acc
  | 0, _, _, _, _ :: _ => .error .fuelErr
  | f + 1, deep, la, acc, (k, v) :: rest =>
      if deep then
        match getEntry acc k with
        | none => extendDictItems f deep la (setEntry acc k v) rest
        | some old => do
            let r ← extendRaw f deep la [old, v]
            extendDictItems f deep la (setEntry acc k r) rest
      else extendDictItems f deep la (setEntry acc k v) rest

/-- The list/tuple branch of `Dict.extend`: the prior list accumulator (or a
fresh empty list after a reset; the other accumulator shapes are unreachable
after the exact-type reset) combined with the source elements according to
the list action. -/
def extendSeq : Nat → Bool → String → List PVal → Option PVal →
    Except Err (List PVal)
  | 0, _, _, _, _ => .error .fuelErr
  | f + 1, deep, la, xs, acc =>
      let e0 : List PVal := match acc with | some (.arr ys) => ys | _ => []
      if la = "append" then .ok (e0 ++ xs)
      else if la = "ammend" then extendAmmend f deep la xs xs.length e0
      else .ok xs

/-- The `ammend` loop of `Dict.extend`, one pass per source element: when
the accumulator is longer than the source, the accumulator becomes the
source followed by the accumulator items past the source length (the slice
`extended[len(arg) - len(extended):]` with a negative start), recursing
through `self.extend` when `deep` is set; otherwise it becomes the source. -/
def extendAmmend : Nat → Bool → String → List PVal → Nat → List PVal →
    Except Err (List PVal)
  | _, _, _, _, 0, e => .ok e
  | 0, _, _, _, _ + 1, _ => .error .fuelErr
  | f + 1, deep, la, xs, n + 1, e =>
      if deep then
        if e.length > xs.length then do
          let r ← extendRaw f deep la [.arr (xs ++ e.drop xs.length)]
          match r with
          | .arr ys => extendAmmend f deep la xs n ys
          | _ => .error .typeErr
        else extendAmmend f deep la xs n xs
      else
        if e.length > xs.length then
          extendAmmend f deep la xs n (xs ++ e.drop xs.length)
        else extendAmmend f deep la xs n xs

/-- A nested (non-first) `Dict.extend` call: runs the loop and returns the
raw accumulator without wrapping; with no sources it returns `None`. -/
def extendRaw : Nat → Bool → String → List PVal → Except Err PVal
  | 0, _, _, _ => .error .fuelErr
  | f + 1, deep, la, args => do
      let acc ← extendLoop f deep la args none
      .ok (match acc with | some e => e | none => PVal.vnone)
end

/-- The body of a top-level `Dict.extend` call after option decoding: the
loop runs and the final accumulator is passed to the `Dict` constructor
(`return Dict(extended)` — the top-level call always wraps; `Dict(None)`
skips the falsy argument and yields an empty `Dict`). -/
def extendCore (f : Nat) (args : List PVal) (deep : Bool) (la : String) :
    Except Err PVal :=
  extendLoop f deep la args none >>= fun acc =>
    construct [match acc with | some e => e | none => PVal.vnone] []

/-- The `list_action` validation of `Dict.extend`: the option must be one
of `replace`, `append`, `ammend` (default `replace`), else `ValueError`. -/
def extendLA (f : Nat) (args : List PVal) (deep : Bool) (laOpt : Option PVal) :
    Except Err PVal :=
  match laOpt with
  | none => extendCore f args deep "replace"
  | some (.vstr s) =>
      if s = "replace" ∨ s = "append" ∨ s = "ammend" then
        extendCore f args deep s
      else .error .valueErr
  | some _ => .error .valueErr

/-- `Dict.extend` at top level (addict.py lines 344-418): `deep` must be
exactly a bool (default false), else `TypeError`; then the list action is
validated and the loop result is wrapped by the constructor. -/
def extendChecked (f : Nat) (args : List PVal) (deepOpt laOpt : Option PVal) :
    Except Err PVal :=
  match deepOpt with
  | none => extendLA f args false laOpt
  | some (.vbool b) => extendLA f args b laOpt
  | some _ => .error .typeErr

mutual
/-- The coercion-closure invariant: no plain (unwrapped) dict occurs
anywhere inside the value — every map-like value reachable from it,
including inside sequences at any depth, is an addict `Dict`. -/
def coClosed : PVal → Bool
  | .raw _ => false
  | .node es => coClosedPairs es
  | .arr xs => coClosedList xs
  | .tup xs => coClosedList xs
  | _ => true

/-- `coClosed` for every element of a list. -/
def coClosedList : List PVal → Bool
  | [] => true
  | x :: xs => coClosed x && coClosedList xs

/-- `coClosed` for every value of an association list. -/
def coClosedPairs : List (String × PVal) → Bool
  | [] => true
  | (_, v) :: rest => coClosed v && coClosedPairs rest
end

/-- One mutating step on an addict `Dict` in the sense of the operations
named by the coercion-closure claim: a subscript or attribute store, an
autovivifying read, `update` with the items of a map-like argument,
`prune`, or replacing the object by the result of a successful `extend`. -/
inductive Op where
  | setIt (k : String) (v : PVal)
  | getIt (k : String)
  | updateIt (fs : List (String × PVal))
  | pruneIt (pz pel : Bool)
  | extendIt (f : Nat) (args : List PVal) (deepOpt laOpt : Option PVal)

/-- Apply one operation to the items of a `Dict`. A failed or non-`Dict`
`extend` result leaves the object unchanged (the source raises and the
receiver is not mutated by `extend`). -/
def applyOp (es : List (String × PVal)) : Op → List (String × PVal)
  | .setIt k v => setitem es k v
  | .getIt k => (getitem es k).2
  | .updateIt fs => updateEntries es fs
  | .pruneIt pz pel => pruneEntries pz pel es
  | .extendIt f args dOpt laOpt =>
      match extendChecked f args dOpt laOpt with
      | .ok (.node es') => es'
      | _ => es

/-- A sequence of mutating operations, applied left to right. -/
def runOps (es : List (String × PVal)) : List Op → List (String × PVal)
  | [] => es
  | op :: ops => runOps (applyOp es op) ops

/-! ## The heap model

Python objects live at addresses; a value is a scalar or a reference.
Every recursive operation takes explicit fuel as its first argument and
returns `none` when the fuel runs out; the source recursion is bounded, so
a large enough fuel always computes the source behavior. -/

/-- A heap address. -/
abbrev Addr := Nat

/-- A Python value in the heap model: an immediate scalar or a reference to
a container object. -/
inductive HVal where
  | hint (i : Int)
  | hstr (s : String)
  | hbool (b : Bool)
  | hnone
  | ref (a : Addr)

/-- A container object: an addict `Dict` (`node`), a plain dict (`raw`),
a list (`arr`) or a tuple (`tup`). -/
inductive Obj where
  | node (es : List (String × HVal))
  | raw (es : List (String × HVal))
  | arr (xs : List HVal)
  | tup (xs : List HVal)

/-- The heap: object number `a` lives at list index `a`; allocation
appends. -/
abbrev Heap := List Obj

/-- The values held directly by an object. -/
def Obj.vals : Obj → List HVal
  | .node es => es.map (·.2)
  | .raw es => es.map (·.2)
  | .arr xs => xs
  | .tup xs => xs

/-- Dict lookup in the heap model. -/
def getEntryH : List (String × HVal) → String → Option HVal
  | [], _ => none
  | (k', v') :: rest, k => if k' = k then some v' else getEntryH rest k

/-- Dict store in the heap model: replace in place or append. -/
def setEntryH : List (String × HVal) → String → HVal → List (String × HVal)
  | [], k, v => [(k, v)]
  | (k', v') :: rest, k, v =>
      if k' = k then (k, v) :: rest else (k', v') :: setEntryH rest k v

/-- No key occurs twice (always true of a real Python dict). -/
def keysND : List (String × HVal) → Bool
  | [] => true
  | (k, _) :: rest => (getEntryH rest k).isNone && keysND rest

mutual
/-- `Dict._hook` in the heap model: a reference to a dict (plain or addict)
is replaced by a freshly constructed addict `Dict` (a deep rebuild through
`cls(item)`); a reference to a list or tuple is replaced by a fresh
same-kind object with hooked elements; scalars pass through. -/
def hookH : Nat → Heap → HVal → Option (HVal × Heap)
  | 0, _, _ => none
  | f + 1, h, v =>
      match v with
      | .ref p =>
          match h.get? p with
          | some (.node es) => constructH f h es
          | some (.raw es) => constructH f h es
          | some (.arr xs) => do
              let (ys, h') ← hookListH f h xs
              some (.ref h'.length, h' ++ [.arr ys])
          | some (.tup xs) => do
              let (ys, h') ← hookListH f h xs
              some (.ref h'.length, h' ++ [.tup ys])
          | none => none
      | sc => some (sc, h)

/-- Elementwise `_hook` over list or tuple elements. -/
def hookListH : Nat → Heap → List HVal → Option (List HVal × Heap)
  | 0, _, _ => none
  | _ + 1, h, [] => some ([], h)
  | f + 1, h, x :: xs => do
      let (y, h₁) ← hookH f h x
      let (ys, h₂) ← hookListH f h₁ xs
      some (y :: ys, h₂)

/-- `Dict(items)` in the heap model: allocate a fresh empty `Dict`, then
insert every item with `self[key] = val`. -/
def constructH : Nat → Heap → List (String × HVal) → Option (HVal × Heap)
  | 0, _, _ => none
  | f + 1, h, es => do
      let a0 := h.length
      let h' ← constructFillH f (h ++ [.node []]) a0 es
      some (.ref a0, h')

/-- The insertion loop of the heap-model constructor. -/
def constructFillH : Nat → Heap → Addr → List (String × HVal) →
    Option Heap
  | 0, _, _, _ => none
  | _ + 1, h, _, [] => some h
  | f + 1, h, a0, (k, v) :: rest => do
      let h' ← setitemH f h a0 k v
      constructFillH f h' a0 rest

/-- `Dict.__setitem__` in the heap model: hook the value, then store it
into the node object at the target address (in place). -/
def setitemH : Nat → Heap → Addr → String → HVal → Option Heap
  | 0, _, _, _, _ => none
  | f + 1, h, a, k, v => do
      let (v', h₁) ← hookH f h v
      match h₁.get? a with
      | some (.node es) => some (h₁.set a (.node (setEntryH es k v')))
      | _ => none
end

/-- `Dict.__getitem__` in the heap model: a present key returns its value
and leaves the heap unchanged; an absent key allocates the literal empty
dict, runs `self[name] = ...` (whose hook builds the fresh empty addict
`Dict`), and returns the value now stored under the key. -/
def getitemH : Nat → Heap → Addr → String → Option (HVal × Heap)
  | 0, _, _, _ => none
  | f + 1, h, a, k =>
      match h.get? a with
      | some (.node es) =>
          match getEntryH es k with
          | some v => some (v, h)
          | none => do
              let r0 := h.length
              let h₁ := h ++ [.raw []]
              let h₂ ← setitemH f h₁ a k (.ref r0)
              match h₂.get? a with
              | some (.node es') => do
                  let v ← getEntryH es' k
                  some (v, h₂)
              | _ => none
      | _ => none

mutual
/-- `Dict.to_dict` in the heap model: allocate a fresh plain dict holding
the converted items of the node at the given address. -/
def toDictH : Nat → Heap → Addr → Option (HVal × Heap)
  | 0, _, _ => none
  | f + 1, h, a =>
      match h.get? a with
      | some (.node es) => do
          let (fs, h') ← toDictEntriesH f h es
          some (.ref h'.length, h' ++ [.raw fs])
      | _ => none

/-- The item loop of `to_dict`. -/
def toDictEntriesH : Nat → Heap → List (String × HVal) →
    Option (List (String × HVal) × Heap)
  | 0, _, _ => none
  | _ + 1, h, [] => some ([], h)
  | f + 1, h, (k, v) :: rest => do
      let (v', h₁) ← toDictValH f h v
      let (fs, h₂) ← toDictEntriesH f h₁ rest
      some ((k, v') :: fs, h₂)

/-- One value of `to_dict`: a `Dict` is converted recursively; a list or
tuple is rebuilt as a fresh object whose `Dict` elements are converted and
whose other elements are passed through shared; every other value
(including a reference to a plain dict) is passed through shared. -/
def toDictValH : Nat → Heap → HVal → Option (HVal × Heap)
  | 0, _, _ => none
  | f + 1, h, v =>
      match v with
      | .ref p =>
          match h.get? p with
          | some (.node _) => toDictH f h p
          | some (.arr xs) => do
              let (ys, h') ← toDictElemsH f h xs
              some (.ref h'.length, h' ++ [.arr ys])
          | some (.tup xs) => do
              let (ys, h') ← toDictElemsH f h xs
              some (.ref h'.length, h' ++ [.tup ys])
          | some (.raw _) => some (v, h)
          | none => none
      | sc => some (sc, h)

/-- The element loop of the sequence case of `to_dict`: only direct `Dict`
elements are converted; everything else is shared. -/
def toDictElemsH : Nat → Heap → List HVal → Option (List HVal × Heap)
  | 0, _, _ => none
  | _ + 1, h, [] => some ([], h)
  | f + 1, h, x :: xs =>
      match x with
      | .ref p =>
          match h.get? p with
          | some (.node _) => do
              let (y, h₁) ← toDictH f h p
              let (ys, h₂) ← toDictElemsH f h₁ xs
              some (y :: ys, h₂)
          | _ => do
              let (ys, h₂) ← toDictElemsH f h xs
              some (x :: ys, h₂)
      | _ => do
          let (ys, h₂) ← toDictElemsH f h xs
          some (x :: ys, h₂)
end

/-- `Dict.copy` in the heap model: `Dict(self.to_dict())` — convert to a
plain dict, then construct a fresh `Dict` from its items. -/
def copyH : Nat → Heap → Addr → Option (HVal × Heap)
  | 0, _, _ => none
  | f + 1, h, a => do
      let (rv, h₁) ← toDictH f h a
      match rv with
      | .ref rb =>
          match h₁.get? rb with
          | some (.raw es) => constructH f h₁ es
          | _ => none
      | _ => none

/-- The pure shape read back from a heap value: Python equality on dicts
ignores the `dict`/`Dict` distinction, so both read back as `pmap`; a dict
with a repeated key is rejected (impossible for a real Python dict). -/
inductive PV where
  | pint (i : Int)
  | pstr (s : String)
  | pbool (b : Bool)
  | pnone
  | pmap (es : List (String × PV))
  | parr (xs : List PV)
  | ptup (xs : List PV)

mutual
/-- Read the pure shape of a heap value; fails on dangling references,
repeated keys, or insufficient fuel (in particular on cyclic structures,
which no addict operation ever builds). -/
def readBackN : Nat → Heap → HVal → Option PV
  | 0, _, _ => none
  | f + 1, h, v =>
      match v with
      | .hint i => some (.pint i)
      | .hstr s => some (.pstr s)
      | .hbool b => some (.pbool b)
      | .hnone => some .pnone
      | .ref p =>
          match h.get? p with
          | some (.node es) =>
              if keysND es then (readPairsN f h es).map .pmap else none
          | some (.raw es) =>
              if keysND es then (readPairsN f h es).map .pmap else none
          | some (.arr xs) => (readElemsN f h xs).map .parr
          | some (.tup xs) => (readElemsN f h xs).map .ptup
          | none => none

/-- Read back each value of a dict. -/
def readPairsN : Nat → Heap → List (String × HVal) →
    Option (List (String × PV))
  | 0, _, _ => none
  | _ + 1, _, [] => some []
  | f + 1, h, (k, v) :: rest => do
      let pv ← readBackN f h v
      let ps ← readPairsN f h rest
      some ((k, pv) :: ps)

/-- Read back each element of a sequence. -/
def readElemsN : Nat → Heap → List HVal → Option (List PV)
  | 0, _, _ => none
  | _ + 1, _, [] => some []
  | f + 1, h, x :: xs => do
      let p ← readBackN f h x
      let ps ← readElemsN f h xs
      some (p :: ps)
end

/-- The addresses reachable from a heap value: the address a reference
points to, and every address reachable from a value held by an object at a
reachable address. An address holds a (mutable or immutable) container, so
two values reach disjoint address sets exactly when they share no
container. -/
inductive ReachV (h : Heap) : HVal → Addr → Prop
  | here (a : Addr) : ReachV h (.ref a) a
  | via (a : Addr) (o : Obj) (w : HVal) (x : Addr) :
      h.get? a = some o → w ∈ o.vals → ReachV h w x → ReachV h (.ref a) x

/-! ## Predicates used by the claim statements -/

mutual
/-- No addict `Dict` occurs anywhere inside the value. -/
def nodeFree : PVal → Bool
  | .node _ => false
  | .raw es => nodeFreePairs es
  | .arr xs => nodeFreeList xs
  | .tup xs => nodeFreeList xs
  | _ => true

/-- `nodeFree` for every element of a list. -/
def nodeFreeList : List PVal → Bool
  | [] => true
  | x :: xs => nodeFree x && nodeFreeList xs

/-- `nodeFree` for every value of an association list. -/
def nodeFreePairs : List (String × PVal) → Bool
  | [] => true
  | (_, v) :: rest => nodeFree v && nodeFreePairs rest
end

mutual
/-- The values on which `to_dict` removes every `Dict`: a `Dict` may occur
as a value of a (transitively nested) `Dict` or as a direct element of a
sequence value, but not deeper inside a sequence, and a plain dict must
hide no `Dict`. -/
def okVal : PVal → Bool
  | .node es => okPairs es
  | .raw es => nodeFreePairs es
  | .arr xs => okElems xs
  | .tup xs => okElems xs
  | _ => true

/-- `okVal` for every value of an association list. -/
def okPairs : List (String × PVal) → Bool
  | [] => true
  | (_, v) :: rest => okVal v && okPairs rest

/-- A sequence element: a `Dict` element is converted by `to_dict` (so its
own values must be convertible), any other element passes through shared
and must already be free of `Dict` values. -/
def okElems : List PVal → Bool
  | [] => true
  | x :: xs =>
      (match x with
       | .node es => okPairs es
       | y => nodeFree y) && okElems xs
end

/-- No key occurs twice (always true of a real Python dict). -/
def keysNDP : List (String × PVal) → Bool
  | [] => true
  | (k, _) :: rest => (getEntry rest k).isNone && keysNDP rest

/-- `isinstance(value, dict)`: true of a plain dict and of an addict
`Dict`. -/
def isMapLike : PVal → Bool
  | .node _ => true
  | .raw _ => true
  | _ => false

/-- The heap `h'` extends `h`: nothing below the old length was freed or
modified (allocation only appends). -/
def HExt (h h' : Heap) : Prop :=
  h.length ≤ h'.length ∧ ∀ i, i < h.length → h'.get? i = h.get? i

/-- The value is a scalar or a reference at or above address `n`. -/
def FreshOk (n : Nat) (w : HVal) : Prop :=
  ∀ b, w = .ref b → n ≤ b

/-- Every object at or above address `n` holds only scalars and references
at or above `n`: the fresh region is closed, so nothing reachable from
inside it leaves it. -/
def NewCl (n : Nat) (h : Heap) : Prop :=
  ∀ a o, n ≤ a → h.get? a = some o → ∀ w ∈ o.vals, FreshOk n w

/-! ## Basic lemmas on dict stores -/

theorem getEntry_setEntry_self (es : List (String × PVal)) (k : String)
    (v : PVal) : getEntry (setEntry es k v) k = some v := by
  induction es with
  | nil => simp [setEntry, getEntry]
  | cons p rest ih =>
      obtain ⟨k', v'⟩ := p
      by_cases hk : k' = k
      · simp [setEntry, hk, getEntry]
      · simp [setEntry, hk, getEntry, ih]

theorem getEntry_setEntry_other (es : List (String × PVal)) (k q : String)
    (v : PVal) (hq : q ≠ k) : getEntry (setEntry es k v) q = getEntry es q := by
  have hkq : ¬ k = q := fun h => hq h.symm
  induction es with
  | nil => simp [setEntry, getEntry, hkq]
  | cons p rest ih =>
      obtain ⟨k', v'⟩ := p
      by_cases hk : k' = k
      · subst hk
        simp [setEntry, getEntry, hkq]
      · by_cases hq' : k' = q
        · simp [setEntry, hk, getEntry, hq', hq, hkq]
        · simp [setEntry, hk, getEntry, hq', ih]

/-! ## Claim C10 -/

/-- Claim C10: a tuple construction source of length three or more whose
first element is a key (so not itself a tuple) inserts exactly the single
pair of its first two elements, silently discarding the rest; no
length-two check is made and no failure is raised. -/
theorem claim_C10 (k : String) (v w : PVal) (rest : List PVal) :
    construct [.tup (.vstr k :: v :: w :: rest)] [] =
      .ok (.node [(k, hook v)]) := rfl

/-! ## Claim C9 -/

/-- Claim C9: attribute-style assignment fails with the reserved-name
error exactly when the name is a member of the `Dict` type itself, and
otherwise is the same coerced store as subscript assignment; subscript
assignment itself always stores the hooked value, with no reserved-name
check. -/
theorem claim_C9 (es : List (String × PVal)) (k : String) (v : PVal) :
    (k ∈ dictMembers → setattrE es k v = .error .attrErr) ∧
    (k ∉ dictMembers → setattrE es k v = .ok (setitem es k v)) ∧
    getEntry (setitem es k v) k = some (hook v) := by
  refine ⟨fun hm => ?_, fun hm => ?_, ?_⟩
  · simp [setattrE, hm]
  · simp [setattrE, hm]
  · exact getEntry_setEntry_self es k (hook v)

/-- Witness for claim C9 at the reserved name `update` and the free name
`alpha`. -/
theorem claim_C9_witness :
    setattrE [] "update" (.vint 1) = .error .attrErr ∧
    setattrE [] "alpha" (.vint 1) = .ok (setitem [] "alpha" (.vint 1)) ∧
    getEntry (setitem [] "update" (.vint 1)) "update" =
      some (hook (.vint 1)) :=
  ⟨(claim_C9 [] "update" (.vint 1)).1 (by decide),
   (claim_C9 [] "alpha" (.vint 1)).2.1 (by decide),
   (claim_C9 [] "update" (.vint 1)).2.2⟩

/-! ## Claim C6 -/

/-- Processing one item of `prune` either deletes the key or keeps it (with
a possibly rebuilt value) in place; it never renames a key and never
touches the rest. -/
theorem pruneEntries_cons_shape (pz pel : Bool) (k' : String) (v' : PVal)
    (rest : List (String × PVal)) :
    pruneEntries pz pel ((k', v') :: rest) = pruneEntries pz pel rest ∨
    ∃ w, pruneEntries pz pel ((k', v') :: rest) =
      (k', w) :: pruneEntries pz pel rest := by
  cases v' with
  | node es =>
      simp only [pruneEntries, pruneVal]
      split
      · exact Or.inl rfl
      · split
        · exact Or.inl rfl
        · exact Or.inr ⟨_, rfl⟩
  | arr xs =>
      simp only [pruneEntries, pruneVal]
      split
      · exact Or.inl rfl
      · split
        · exact Or.inl rfl
        · exact Or.inr ⟨_, rfl⟩
  | tup xs =>
      simp only [pruneEntries, pruneVal]
      split
      · exact Or.inl rfl
      · split
        · exact Or.inl rfl
        · exact Or.inr ⟨_, rfl⟩
  | raw es =>
      simp only [pruneEntries, pruneVal]
      split
      · exact Or.inl rfl
      · exact Or.inr ⟨_, rfl⟩
  | vint i =>
      simp only [pruneEntries, pruneVal]
      split
      · exact Or.inl rfl
      · exact Or.inr ⟨_, rfl⟩
  | vstr s =>
      simp only [pruneEntries, pruneVal]
      split
      · exact Or.inl rfl
      · exact Or.inr ⟨_, rfl⟩
  | vbool b =>
      simp only [pruneEntries, pruneVal]
      split
      · exact Or.inl rfl
      · exact Or.inr ⟨_, rfl⟩
  | vnone =>
      simp only [pruneEntries, pruneVal]
      split
      · exact Or.inl rfl
      · exact Or.inr ⟨_, rfl⟩

/-- `prune` introduces no key that was absent before. -/
theorem pruneEntries_absent (pz pel : Bool) (es : List (String × PVal))
    (q : String) (h : getEntry es q = none) :
    getEntry (pruneEntries pz pel es) q = none := by
  induction es with
  | nil => simpa [pruneEntries] using h
  | cons p rest ih =>
      obtain ⟨k', v'⟩ := p
      simp only [getEntry] at h
      by_cases hk : k' = q
      · simp [hk] at h
      · simp only [hk, if_false] at h
        rcases pruneEntries_cons_shape pz pel k' v' rest with he | ⟨w, he⟩
        · rw [he]; exact ih h
        · rw [he]; simp [getEntry, hk]; exact ih h

/-- Claim C6, corrected: with `pruneEmptySequence` off, a key holding an
empty list-kind sequence is kept with its value still the empty list; but
a key holding an empty tuple-kind sequence is deleted by the blanket
falsy-deletion rule (which exempts only lists) no matter how
`pruneEmptySequence` is set. -/
theorem claim_C6 (pz pel : Bool) (es : List (String × PVal)) (k : String) :
    (getEntry es k = some (.arr []) →
      getEntry (pruneEntries pz false es) k = some (.arr [])) ∧
    (keysNDP es = true → getEntry es k = some (.tup []) →
      getEntry (pruneEntries pz pel es) k = none) := by
  induction es with
  | nil => exact ⟨fun h => by simp [getEntry] at h,
                  fun _ h => by simp [getEntry] at h⟩
  | cons p rest ih =>
      obtain ⟨k', v'⟩ := p
      constructor
      · intro h
        simp only [getEntry] at h
        by_cases hk : k' = k
        · simp only [hk, if_true] at h
          obtain rfl : v' = .arr [] := by cases h; rfl
          subst hk
          have hstep : pruneEntries pz false ((k', PVal.arr []) :: rest) =
              (k', PVal.arr []) :: pruneEntries pz false rest := by
            simp [pruneEntries, falsy, eqZero, isList, pruneVal, pruneIter,
              hook, hookList]
          rw [hstep]
          simp [getEntry]
        · simp only [hk, if_false] at h
          rcases pruneEntries_cons_shape pz false k' v' rest with he | ⟨w, he⟩
          · rw [he]; exact (ih.1) h
          · rw [he]; simp [getEntry, hk]; exact (ih.1) h
      · intro hnd h
        simp only [keysNDP, Bool.and_eq_true, Option.isNone_iff_eq_none] at hnd
        simp only [getEntry] at h
        by_cases hk : k' = k
        · simp only [hk, if_true] at h
          obtain rfl : v' = .tup [] := by cases h; rfl
          have hstep : pruneEntries pz pel ((k', PVal.tup []) :: rest) =
              pruneEntries pz pel rest := by
            simp [pruneEntries, falsy, eqZero, isList]
          rw [hstep]
          exact pruneEntries_absent pz pel rest k (hk ▸ hnd.1)
        · simp only [hk, if_false] at h
          rcases pruneEntries_cons_shape pz pel k' v' rest with he | ⟨w, he⟩
          · rw [he]; exact (ih.2) hnd.2 h
          · rw [he]; simp [getEntry, hk]; exact (ih.2) hnd.2 h

/-- Witness for claim C6 on a one-key dict of each sequence kind. -/
theorem claim_C6_witness :
    getEntry (pruneEntries false false [("a", PVal.arr [])]) "a" =
      some (.arr []) ∧
    getEntry (pruneEntries false true [("b", PVal.tup [])]) "b" = none :=
  ⟨(claim_C6 false false [("a", PVal.arr [])] "a").1 rfl,
   (claim_C6 false true [("b", PVal.tup [])] "b").2 rfl rfl⟩

/-- Counterexample to claim C6 as stated: an empty tuple-kind sequence is
deleted by `prune` even with `pruneEmptySequence` off. -/
theorem claim_C6_counterexample :
    pruneEntries false false [("a", PVal.tup [])] = [] := rfl

/-! ## Claim C3 -/

mutual
/-- `to_dict` removes every `Dict` from the items of a convertible dict. -/
theorem toDictEntries_nodeFree :
    ∀ es, okPairs es = true → nodeFreePairs (toDictEntries es) = true
  | [], _ => rfl
  | (k, v) :: rest, h => by
      simp only [okPairs, Bool.and_eq_true] at h
      simp only [toDictEntries, nodeFreePairs, Bool.and_eq_true]
      exact ⟨toDictVal_nodeFree v h.1, toDictEntries_nodeFree rest h.2⟩

/-- `to_dict` removes every `Dict` from a convertible value. -/
theorem toDictVal_nodeFree :
    ∀ v, okVal v = true → nodeFree (toDictVal v) = true
  | .node es, h => toDictEntries_nodeFree es h
  | .raw es, h => h
  | .arr xs, h => toDictElems_nodeFree xs h
  | .tup xs, h => toDictElems_nodeFree xs h
  | .vint _, _ => rfl
  | .vstr _, _ => rfl
  | .vbool _, _ => rfl
  | .vnone, _ => rfl

/-- `to_dict` removes every `Dict` from a sequence of convertible
elements. -/
theorem toDictElems_nodeFree :
    ∀ xs, okElems xs = true → nodeFreeList (toDictElems xs) = true
  | [], _ => rfl
  | .node es :: xs, h => by
      simp only [okElems, Bool.and_eq_true] at h
      simp only [toDictElems, nodeFreeList, nodeFree, Bool.and_eq_true]
      exact ⟨toDictEntries_nodeFree es h.1, toDictElems_nodeFree xs h.2⟩
  | .raw es :: xs, h => by
      simp only [okElems, Bool.and_eq_true, nodeFree] at h
      simp only [toDictElems, nodeFreeList, nodeFree, Bool.and_eq_true]
      exact ⟨h.1, toDictElems_nodeFree xs h.2⟩
  | .arr ys :: xs, h => by
      simp only [okElems, Bool.and_eq_true, nodeFree] at h
      simp only [toDictElems, nodeFreeList, nodeFree, Bool.and_eq_true]
      exact ⟨h.1, toDictElems_nodeFree xs h.2⟩
  | .tup ys :: xs, h => by
      simp only [okElems, Bool.and_eq_true, nodeFree] at h
      simp only [toDictElems, nodeFreeList, nodeFree, Bool.and_eq_true]
      exact ⟨h.1, toDictElems_nodeFree xs h.2⟩
  | .vint i :: xs, h => by
      simp only [okElems, Bool.and_eq_true] at h
      simp only [toDictElems, nodeFreeList, nodeFree, Bool.and_eq_true,
        true_and]
      exact toDictElems_nodeFree xs h.2
  | .vstr s :: xs, h => by
      simp only [okElems, Bool.and_eq_true] at h
      simp only [toDictElems, nodeFreeList, nodeFree, Bool.and_eq_true,
        true_and]
      exact toDictElems_nodeFree xs h.2
  | .vbool b :: xs, h => by
      simp only [okElems, Bool.and_eq_true] at h
      simp only [toDictElems, nodeFreeList, nodeFree, Bool.and_eq_true,
        true_and]
      exact toDictElems_nodeFree xs h.2
  | .vnone :: xs, h => by
      simp only [okElems, Bool.and_eq_true] at h
      simp only [toDictElems, nodeFreeList, nodeFree, Bool.and_eq_true,
        true_and]
      exact toDictElems_nodeFree xs h.2
end

/-- Claim C3, corrected: `to_dict` yields a plain dict with no reachable
`Dict` provided no `Dict` of the input sits strictly below the first level
of a sequence value (and no plain dict hides one); a `Dict` nested inside a
sequence within a sequence is passed through unconverted. -/
theorem claim_C3 (es : List (String × PVal)) (h : okPairs es = true) :
    nodeFree (toDict es) = true ∧ toDict es = .raw (toDictEntries es) :=
  ⟨toDictEntries_nodeFree es h, rfl⟩

/-- Witness for claim C3 on a dict holding a `Dict` directly inside a
list value. -/
theorem claim_C3_witness :
    okPairs [("a", PVal.arr [PVal.node [("b", PVal.vint 1)]])] = true ∧
    nodeFree (toDict [("a", PVal.arr [PVal.node [("b", PVal.vint 1)]])]) =
      true :=
  ⟨rfl, (claim_C3 [("a", PVal.arr [PVal.node [("b", PVal.vint 1)]])] rfl).1⟩

/-- Counterexample to claim C3 as stated: on the `Dict` built from the
plain structure with a map two sequence levels deep, `to_dict` leaves that
map as a `Dict` reachable in the result. -/
theorem claim_C3_counterexample :
    nodeFree (toDict (hookPairs
      [("a", PVal.arr [PVal.arr [PVal.raw [("b", PVal.vint 1)]]])] [])) =
      false := rfl

/-! ## Coercion-closure lemmas -/

theorem coClosedPairs_setEntry (es : List (String × PVal)) (k : String)
    (v : PVal) (h1 : coClosedPairs es = true) (h2 : coClosed v = true) :
    coClosedPairs (setEntry es k v) = true := by
  induction es with
  | nil => simp [setEntry, coClosedPairs, h2]
  | cons p rest ih =>
      obtain ⟨k', v'⟩ := p
      simp only [coClosedPairs, Bool.and_eq_true] at h1
      simp only [setEntry]
      by_cases hk : k' = k
      · simp [hk, coClosedPairs, h1.2, h2]
      · simp [hk, coClosedPairs, h1.1, h2, ih h1.2]

mutual
/-- The hook always yields a coercion-closed value: no plain dict survives
anywhere inside its result. -/
theorem coClosed_hook : ∀ v, coClosed (hook v) = true
  | .vint _ => rfl
  | .vstr _ => rfl
  | .vbool _ => rfl
  | .vnone => rfl
  | .node es => by
      simp only [hook, coClosed]
      exact coClosed_hookPairs es [] rfl
  | .raw es => by
      simp only [hook, coClosed]
      exact coClosed_hookPairs es [] rfl
  | .arr xs => by
      simp only [hook, coClosed]
      exact coClosed_hookList xs
  | .tup xs => by
      simp only [hook, coClosed]
      exact coClosed_hookList xs

/-- Elementwise closure of hooked sequence elements. -/
theorem coClosed_hookList : ∀ xs, coClosedList (hookList xs) = true
  | [] => rfl
  | x :: xs => by
      simp only [hookList, coClosedList, Bool.and_eq_true]
      exact ⟨coClosed_hook x, coClosed_hookList xs⟩

/-- The constructor loop over dict items preserves closure of the
accumulated dict. -/
theorem coClosed_hookPairs : ∀ es acc, coClosedPairs acc = true →
    coClosedPairs (hookPairs es acc) = true
  | [], _ => fun h => h
  | (k, v) :: rest, acc => fun h =>
      coClosed_hookPairs rest (setEntry acc k (hook v))
        (coClosedPairs_setEntry acc k (hook v) h (coClosed_hook v))
end

theorem setitem_closed (es : List (String × PVal)) (k : String) (v : PVal)
    (h : coClosedPairs es = true) : coClosedPairs (setitem es k v) = true :=
  coClosedPairs_setEntry es k (hook v) h (coClosed_hook v)

theorem getEntry_closed (es : List (String × PVal)) (k : String) (v : PVal)
    (h : coClosedPairs es = true) (hg : getEntry es k = some v) :
    coClosed v = true := by
  induction es with
  | nil => simp [getEntry] at hg
  | cons p rest ih =>
      obtain ⟨k', v'⟩ := p
      simp only [coClosedPairs, Bool.and_eq_true] at h
      simp only [getEntry] at hg
      by_cases hk : k' = k
      · simp only [hk, if_true] at hg
        cases hg
        exact h.1
      · simp only [hk, if_false] at hg
        exact ih h.2 hg

/-! ## Update lemmas and claim C7 -/

mutual
/-- One `update` item preserves the coercion closure of the receiver. -/
theorem updateOne_closed : ∀ es k v, coClosedPairs es = true →
    coClosedPairs (updateOne es k v) = true
  | es, k, .node ves, h => by
      simp only [updateOne]
      cases hg : getEntry es k with
      | none => exact setitem_closed es k (.node ves) h
      | some sv =>
          cases sv with
          | node ses =>
              refine coClosedPairs_setEntry es k _ h ?_
              have hc : coClosed (.node ses) = true :=
                getEntry_closed es k _ h hg
              simp only [coClosed] at hc ⊢
              exact updateEntries_closed ses ves hc
          | raw ses =>
              have hc : coClosed (.raw ses) = true :=
                getEntry_closed es k _ h hg
              simp [coClosed] at hc
          | vint i => exact setitem_closed es k (.node ves) h
          | vstr s => exact setitem_closed es k (.node ves) h
          | vbool b => exact setitem_closed es k (.node ves) h
          | vnone => exact setitem_closed es k (.node ves) h
          | arr xs => exact setitem_closed es k (.node ves) h
          | tup xs => exact setitem_closed es k (.node ves) h
  | es, k, .raw ves, h => by
      simp only [updateOne]
      cases hg : getEntry es k with
      | none => exact setitem_closed es k (.raw ves) h
      | some sv =>
          cases sv with
          | node ses =>
              refine coClosedPairs_setEntry es k _ h ?_
              have hc : coClosed (.node ses) = true :=
                getEntry_closed es k _ h hg
              simp only [coClosed] at hc ⊢
              exact updateEntries_closed ses ves hc
          | raw ses =>
              have hc : coClosed (.raw ses) = true :=
                getEntry_closed es k _ h hg
              simp [coClosed] at hc
          | vint i => exact setitem_closed es k (.raw ves) h
          | vstr s => exact setitem_closed es k (.raw ves) h
          | vbool b => exact setitem_closed es k (.raw ves) h
          | vnone => exact setitem_closed es k (.raw ves) h
          | arr xs => exact setitem_closed es k (.raw ves) h
          | tup xs => exact setitem_closed es k (.raw ves) h
  | es, k, .vint i, h => setitem_closed es k (.vint i) h
  | es, k, .vstr s, h => setitem_closed es k (.vstr s) h
  | es, k, .vbool b, h => setitem_closed es k (.vbool b) h
  | es, k, .vnone, h => setitem_closed es k .vnone h
  | es, k, .arr xs, h => setitem_closed es k (.arr xs) h
  | es, k, .tup xs, h => setitem_closed es k (.tup xs) h

/-- `update` preserves the coercion closure of the receiver, whatever the
argument holds. -/
theorem updateEntries_closed : ∀ es fs, coClosedPairs es = true →
    coClosedPairs (updateEntries es fs) = true
  | _, [], h => h
  | es, (k, v) :: rest, h =>
      updateEntries_closed (updateOne es k v) rest (updateOne_closed es k v h)
end

/-- Every `update` item results in a single store at its key. -/
theorem updateOne_shape : ∀ es k v, ∃ w, updateOne es k v = setEntry es k w
  | es, k, .node ves => by
      simp only [updateOne, setitem]
      split
      · exact ⟨_, rfl⟩
      · exact ⟨_, rfl⟩
      · exact ⟨_, rfl⟩
  | es, k, .raw ves => by
      simp only [updateOne, setitem]
      split
      · exact ⟨_, rfl⟩
      · exact ⟨_, rfl⟩
      · exact ⟨_, rfl⟩
  | es, k, .vint i => ⟨_, rfl⟩
  | es, k, .vstr s => ⟨_, rfl⟩
  | es, k, .vbool b => ⟨_, rfl⟩
  | es, k, .vnone => ⟨_, rfl⟩
  | es, k, .arr xs => ⟨_, rfl⟩
  | es, k, .tup xs => ⟨_, rfl⟩

/-- An `update` item leaves every other key unchanged. -/
theorem updateOne_other (es : List (String × PVal)) (k : String) (v : PVal)
    (q : String) (hq : q ≠ k) :
    getEntry (updateOne es k v) q = getEntry es q := by
  obtain ⟨w, hw⟩ := updateOne_shape es k v
  rw [hw]
  exact getEntry_setEntry_other es k q w hq

/-- The value stored by one `update` item at its own key: a recursive merge
exactly when the current value is a `Dict` and the incoming value is
map-like; the hooked incoming value in every other case (the receiver is
assumed coercion-closed, which rules out a plain-dict current value). -/
theorem updateOne_self (es : List (String × PVal)) (k : String) (v : PVal)
    (hcl : coClosedPairs es = true) :
    getEntry (updateOne es k v) k =
      some (match getEntry es k, v with
        | some (.node ses), .node ves => .node (updateEntries ses ves)
        | some (.node ses), .raw ves => .node (updateEntries ses ves)
        | _, _ => hook v) := by
  cases v with
  | node ves =>
      cases hg : getEntry es k with
      | none => simp [updateOne, hg, setitem, getEntry_setEntry_self]
      | some sv =>
          cases sv with
          | node ses => simp [updateOne, hg, getEntry_setEntry_self]
          | raw ses =>
              have hc : coClosed (.raw ses) = true :=
                getEntry_closed es k _ hcl hg
              simp [coClosed] at hc
          | vint i => simp [updateOne, hg, setitem, getEntry_setEntry_self]
          | vstr s => simp [updateOne, hg, setitem, getEntry_setEntry_self]
          | vbool b => simp [updateOne, hg, setitem, getEntry_setEntry_self]
          | vnone => simp [updateOne, hg, setitem, getEntry_setEntry_self]
          | arr xs => simp [updateOne, hg, setitem, getEntry_setEntry_self]
          | tup xs => simp [updateOne, hg, setitem, getEntry_setEntry_self]
  | raw ves =>
      cases hg : getEntry es k with
      | none => simp [updateOne, hg, setitem, getEntry_setEntry_self]
      | some sv =>
          cases sv with
          | node ses => simp [updateOne, hg, getEntry_setEntry_self]
          | raw ses =>
              have hc : coClosed (.raw ses) = true :=
                getEntry_closed es k _ hcl hg
              simp [coClosed] at hc
          | vint i => simp [updateOne, hg, setitem, getEntry_setEntry_self]
          | vstr s => simp [updateOne, hg, setitem, getEntry_setEntry_self]
          | vbool b => simp [updateOne, hg, setitem, getEntry_setEntry_self]
          | vnone => simp [updateOne, hg, setitem, getEntry_setEntry_self]
          | arr xs => simp [updateOne, hg, setitem, getEntry_setEntry_self]
          | tup xs => simp [updateOne, hg, setitem, getEntry_setEntry_self]
  | vint i =>
      cases hg : getEntry es k with
      | none => simp [updateOne, setitem, getEntry_setEntry_self]
      | some sv =>
          cases sv <;> simp [updateOne, setitem, getEntry_setEntry_self]
  | vstr s =>
      cases hg : getEntry es k with
      | none => simp [updateOne, setitem, getEntry_setEntry_self]
      | some sv =>
          cases sv <;> simp [updateOne, setitem, getEntry_setEntry_self]
  | vbool b =>
      cases hg : getEntry es k with
      | none => simp [updateOne, setitem, getEntry_setEntry_self]
      | some sv =>
          cases sv <;> simp [updateOne, setitem, getEntry_setEntry_self]
  | vnone =>
      cases hg : getEntry es k with
      | none => simp [updateOne, setitem, getEntry_setEntry_self]
      | some sv =>
          cases sv <;> simp [updateOne, setitem, getEntry_setEntry_self]
  | arr xs =>
      cases hg : getEntry es k with
      | none => simp [updateOne, setitem, getEntry_setEntry_self]
      | some sv =>
          cases sv <;> simp [updateOne, setitem, getEntry_setEntry_self]
  | tup xs =>
      cases hg : getEntry es k with
      | none => simp [updateOne, setitem, getEntry_setEntry_self]
      | some sv =>
          cases sv <;> simp [updateOne, setitem, getEntry_setEntry_self]

/-- Claim C7: `update` with a map-like argument merges recursively at a key
exactly when the key is already present and both the current and the
incoming value are map-like; in every other case (absent key, or either
side not map-like, sequences included) the current value is overwritten
outright with the coerced (hooked) incoming value; and keys not named by
the argument keep their values. The receiver is coercion-closed, as every
real addict `Dict` is, so a present map-like current value is a `Dict`. -/
theorem claim_C7 (es fs : List (String × PVal)) (hND : keysNDP fs = true)
    (hcl : coClosedPairs es = true) :
    (∀ k v, getEntry fs k = some v →
      getEntry (updateEntries es fs) k =
        some (match getEntry es k, v with
          | some (.node ses), .node ves => .node (updateEntries ses ves)
          | some (.node ses), .raw ves => .node (updateEntries ses ves)
          | _, _ => hook v)) ∧
    (∀ k, getEntry fs k = none →
      getEntry (updateEntries es fs) k = getEntry es k) := by
  induction fs generalizing es with
  | nil =>
      exact ⟨fun k v h => by simp [getEntry] at h,
             fun k _ => by simp [updateEntries]⟩
  | cons p rest ih =>
      obtain ⟨k₀, v₀⟩ := p
      simp only [keysNDP, Bool.and_eq_true, Option.isNone_iff_eq_none] at hND
      have hcl₁ : coClosedPairs (updateOne es k₀ v₀) = true :=
        updateOne_closed es k₀ v₀ hcl
      have IH := ih (updateOne es k₀ v₀) hND.2 hcl₁
      have hdef : updateEntries es ((k₀, v₀) :: rest) =
          updateEntries (updateOne es k₀ v₀) rest := rfl
      constructor
      · intro k v hg
        simp only [getEntry] at hg
        by_cases hk : k₀ = k
        · subst hk
          simp only [if_true] at hg
          cases hg
          rw [hdef, IH.2 k₀ hND.1, updateOne_self es k₀ v₀ hcl]
        · simp only [hk, if_false] at hg
          rw [hdef, IH.1 k v hg,
            updateOne_other es k₀ v₀ k (fun h => hk h.symm)]
      · intro k hg
        simp only [getEntry] at hg
        by_cases hk : k₀ = k
        · simp [hk] at hg
        · simp only [hk, if_false] at hg
          rw [hdef, IH.2 k hg,
            updateOne_other es k₀ v₀ k (fun h => hk h.symm)]

/-- Witness for claim C7: a map-map collision at `a` merges recursively, a
missing key `d` is inserted coerced, and the untouched key `x` keeps its
value. -/
theorem claim_C7_witness :
    keysNDP [("a", PVal.raw [("c", PVal.vint 2)]), ("d", PVal.arr [PVal.vint 3])] = true ∧
    coClosedPairs [("a", PVal.node [("b", PVal.vint 1)]), ("x", PVal.vint 9)] = true ∧
    getEntry (updateEntries
        [("a", PVal.node [("b", PVal.vint 1)]), ("x", PVal.vint 9)]
        [("a", PVal.raw [("c", PVal.vint 2)]), ("d", PVal.arr [PVal.vint 3])]) "a" =
      some (.node (updateEntries [("b", PVal.vint 1)] [("c", PVal.vint 2)])) ∧
    getEntry (updateEntries
        [("a", PVal.node [("b", PVal.vint 1)]), ("x", PVal.vint 9)]
        [("a", PVal.raw [("c", PVal.vint 2)]), ("d", PVal.arr [PVal.vint 3])]) "x" =
      some (PVal.vint 9) := by
  refine ⟨rfl, rfl, ?_, ?_⟩
  · exact (claim_C7
      [("a", PVal.node [("b", PVal.vint 1)]), ("x", PVal.vint 9)]
      [("a", PVal.raw [("c", PVal.vint 2)]), ("d", PVal.arr [PVal.vint 3])]
      rfl rfl).1 "a" (PVal.raw [("c", PVal.vint 2)]) rfl
  · exact ((claim_C7
      [("a", PVal.node [("b", PVal.vint 1)]), ("x", PVal.vint 9)]
      [("a", PVal.raw [("c", PVal.vint 2)]), ("d", PVal.arr [PVal.vint 3])]
      rfl rfl).2 "x" rfl).trans rfl

/-! ## Claims C5 and C4 -/

theorem exceptBind_ok {α β : Type} {x : Except Err α} {f : α → Except Err β}
    {v : β} (h : (x >>= f) = .ok v) : ∃ a, x = .ok a ∧ f a = .ok v := by
  cases x with
  | error e => simp [Bind.bind, Except.bind] at h
  | ok a => exact ⟨a, rfl, by simpa [Bind.bind, Except.bind] using h⟩

/-- A successful construction always yields a `Dict`. -/
theorem construct_is_node (args : List PVal) (kws : List (String × PVal))
    (v : PVal) (h : construct args kws = .ok v) :
    ∃ es, v = .node es := by
  unfold construct at h
  obtain ⟨acc, -, h⟩ := exceptBind_ok h
  cases h
  exact ⟨_, rfl⟩

theorem extendCore_is_node (f : Nat) (args : List PVal) (deep : Bool)
    (la : String) (v : PVal) (h : extendCore f args deep la = .ok v) :
    ∃ es, v = .node es := by
  unfold extendCore at h
  obtain ⟨acc, -, h⟩ := exceptBind_ok h
  exact construct_is_node _ _ _ h

theorem extendLA_is_node (f : Nat) (args : List PVal) (deep : Bool)
    (laOpt : Option PVal) (v : PVal)
    (h : extendLA f args deep laOpt = .ok v) : ∃ es, v = .node es := by
  rcases laOpt with - | lv
  · simp only [extendLA] at h
    exact extendCore_is_node _ _ _ _ _ h
  · cases lv with
    | vstr s =>
        simp only [extendLA] at h
        by_cases hs : s = "replace" ∨ s = "append" ∨ s = "ammend"
        · rw [if_pos hs] at h
          exact extendCore_is_node _ _ _ _ _ h
        · rw [if_neg hs] at h
          simp at h
    | vint i => simp [extendLA] at h
    | vbool b => simp [extendLA] at h
    | vnone => simp [extendLA] at h
    | node es => simp [extendLA] at h
    | raw es => simp [extendLA] at h
    | arr xs => simp [extendLA] at h
    | tup xs => simp [extendLA] at h

/-- A successful top-level `extend` always yields a `Dict`: the final
accumulator is always passed to the constructor. -/
theorem extendChecked_is_node (f : Nat) (args : List PVal)
    (dOpt laOpt : Option PVal) (v : PVal)
    (h : extendChecked f args dOpt laOpt = .ok v) : ∃ es, v = .node es := by
  rcases dOpt with - | dv
  · simp only [extendChecked] at h
    exact extendLA_is_node _ _ _ _ _ h
  · cases dv with
    | vbool b =>
        simp only [extendChecked] at h
        exact extendLA_is_node _ _ _ _ _ h
    | vint i => simp [extendChecked] at h
    | vstr s => simp [extendChecked] at h
    | vnone => simp [extendChecked] at h
    | node es => simp [extendChecked] at h
    | raw es => simp [extendChecked] at h
    | arr xs => simp [extendChecked] at h
    | tup xs => simp [extendChecked] at h

/-- Claim C5, corrected: with `listAction` `append` the loop accumulator
for the two list sources is their concatenation `[1, 2, 3, 4]`, but the
top-level call then passes it to the `Dict` constructor instead of
returning it: iterating the non-pair elements fails with `TypeError`, so
the call raises rather than returning the bare list; in general a
successful top-level `extend` returns a `Dict`, never a bare sequence. -/
theorem claim_C5 :
    extendLoop 20 false "append"
      [.arr [.vint 1, .vint 2], .arr [.vint 3, .vint 4]] none =
      .ok (some (.arr [.vint 1, .vint 2, .vint 3, .vint 4])) ∧
    extendChecked 20 [.arr [.vint 1, .vint 2], .arr [.vint 3, .vint 4]]
      none (some (.vstr "append")) = .error .typeErr ∧
    (∀ f args dOpt laOpt v, extendChecked f args dOpt laOpt = .ok v →
      ∃ es, v = .node es) :=
  ⟨rfl, rfl, extendChecked_is_node⟩

/-- Witness for claim C5: a successful top-level `extend` on one plain-dict
source yields a `Dict`. -/
theorem claim_C5_witness :
    ∃ es, PVal.node [("a", PVal.vint 1)] = PVal.node es :=
  claim_C5.2.2 20 [.raw [("a", .vint 1)]] none none
    (PVal.node [("a", PVal.vint 1)]) rfl

/-- Counterexample to claim C5 as stated: the append example raises
`TypeError` instead of returning the bare list `[1, 2, 3, 4]`. -/
theorem claim_C5_counterexample :
    extendChecked 20 [.arr [.vint 1, .vint 2], .arr [.vint 3, .vint 4]]
      none (some (.vstr "append")) = .error .typeErr := rfl

/-- Claim C4 evaluated at the failing input: extending two addict `Dict`
sources. The exact-type reset (`type(extended) != type(arg)`) fires because
the accumulator is a plain dict while the source is a `Dict`, so the first
map-like source is discarded instead of merged: the key `a` present only in
the earlier source is lost and only `b` survives, where the claim (and the
docstring examples of `extend`) require both keys. -/
theorem claim_C4 :
    extendChecked 20 [.node [("a", .vint 1)], .node [("b", .vint 2)]]
      none none = .ok (.node [("b", .vint 2)]) ∧
    extendChecked 20 [.node [("a", .vint 1)], .node [("b", .vint 2)]]
      (some (.vbool true)) (some (.vstr "append")) =
      .ok (.node [("b", .vint 2)]) :=
  ⟨rfl, rfl⟩

/-! ## Claim C2 -/

theorem insertItems_closed : ∀ kvs acc, coClosedPairs acc = true →
    coClosedPairs (insertItems acc kvs) = true
  | [], _, h => h
  | (k, v) :: rest, acc, h =>
      insertItems_closed rest (setitem acc k v) (setitem_closed acc k v h)

theorem insertPairList_closed : ∀ xs acc r,
    insertPairList acc xs = .ok r → coClosedPairs acc = true →
    coClosedPairs r = true
  | [], acc, r, hr, h => by
      simp only [insertPairList] at hr
      cases hr
      exact h
  | x :: xs, acc, r, hr, h => by
      simp only [insertPairList] at hr
      obtain ⟨⟨k, v⟩, -, hr⟩ := exceptBind_ok hr
      exact insertPairList_closed xs (setitem acc k v) r hr
        (setitem_closed acc k v h)

theorem constructArg_closed (acc : List (String × PVal)) (a : PVal)
    (r : List (String × PVal)) (hr : constructArg acc a = .ok r)
    (h : coClosedPairs acc = true) : coClosedPairs r = true := by
  unfold constructArg at hr
  by_cases hf : falsy a = true
  · rw [if_pos hf] at hr
    cases hr
    exact h
  · rw [if_neg hf] at hr
    cases a with
    | node es =>
        cases hr
        exact insertItems_closed es acc h
    | raw es =>
        cases hr
        exact insertItems_closed es acc h
    | arr xs => exact insertPairList_closed xs acc r hr h
    | tup xs =>
        rcases xs with - | ⟨x, xs'⟩
        · cases hr
          exact h
        · cases x with
          | tup ys => exact insertPairList_closed _ acc r hr h
          | vstr k =>
              rcases xs' with - | ⟨v, xs''⟩
              · cases hr
              · cases hr
                exact setitem_closed acc k v h
          | vint i =>
              rcases xs' with - | ⟨v, xs''⟩ <;> cases hr
          | vbool b =>
              rcases xs' with - | ⟨v, xs''⟩ <;> cases hr
          | vnone =>
              rcases xs' with - | ⟨v, xs''⟩ <;> cases hr
          | node es =>
              rcases xs' with - | ⟨v, xs''⟩ <;> cases hr
          | raw es =>
              rcases xs' with - | ⟨v, xs''⟩ <;> cases hr
          | arr ys =>
              rcases xs' with - | ⟨v, xs''⟩ <;> cases hr
    | vint i => cases hr
    | vstr s => cases hr
    | vbool b => cases hr
    | vnone => cases hr

theorem constructArgs_closed : ∀ args acc r,
    constructArgs args acc = .ok r → coClosedPairs acc = true →
    coClosedPairs r = true
  | [], acc, r, hr, h => by
      simp only [constructArgs] at hr
      cases hr
      exact h
  | a :: rest, acc, r, hr, h => by
      simp only [constructArgs] at hr
      obtain ⟨acc', ha, hr⟩ := exceptBind_ok hr
      exact constructArgs_closed rest acc' r hr
        (constructArg_closed acc a acc' ha h)

/-- Every successful construction yields a coercion-closed `Dict`. -/
theorem construct_closed (args : List PVal) (kws : List (String × PVal))
    (v : PVal) (hr : construct args kws = .ok v) : coClosed v = true := by
  unfold construct at hr
  obtain ⟨acc, ha, hr⟩ := exceptBind_ok hr
  cases hr
  simpa [coClosed] using
    insertItems_closed kws acc (constructArgs_closed args [] acc ha rfl)

mutual
/-- The prune content step preserves coercion closure. -/
theorem pruneVal_closed : ∀ pz pel v, coClosed v = true →
    coClosed (pruneVal pz pel v) = true
  | pz, pel, .node es, h => by
      simp only [pruneVal, coClosed] at h ⊢
      exact pruneEntries_closed pz pel es h
  | pz, pel, .arr xs, h => by
      simp only [pruneVal, coClosed] at h ⊢
      exact pruneIter_closed pz pel xs h
  | pz, pel, .tup xs, h => by
      simp only [pruneVal, coClosed] at h ⊢
      exact pruneIter_closed pz pel xs h
  | _, _, .raw es, h => by simp [coClosed] at h
  | _, _, .vint i, h => h
  | _, _, .vstr s, h => h
  | _, _, .vbool b, h => h
  | _, _, .vnone, h => h

/-- `prune` preserves coercion closure of the dict items. -/
theorem pruneEntries_closed : ∀ pz pel es, coClosedPairs es = true →
    coClosedPairs (pruneEntries pz pel es) = true
  | _, _, [], h => h
  | pz, pel, (k, v) :: rest, h => by
      simp only [coClosedPairs, Bool.and_eq_true] at h
      simp only [pruneEntries]
      split
      · exact pruneEntries_closed pz pel rest h.2
      · have hv := pruneVal_closed pz pel v h.1
        split
        · rename_i es' hes
          rw [hes] at hv
          split
          · exact pruneEntries_closed pz pel rest h.2
          · simp only [coClosedPairs, Bool.and_eq_true]
            exact ⟨hv, pruneEntries_closed pz pel rest h.2⟩
        · split
          · exact pruneEntries_closed pz pel rest h.2
          · simp only [coClosedPairs, Bool.and_eq_true]
            exact ⟨coClosed_hook _, pruneEntries_closed pz pel rest h.2⟩
        · split
          · exact pruneEntries_closed pz pel rest h.2
          · simp only [coClosedPairs, Bool.and_eq_true]
            exact ⟨coClosed_hook _, pruneEntries_closed pz pel rest h.2⟩
        · simp only [coClosedPairs, Bool.and_eq_true]
          exact ⟨hv, pruneEntries_closed pz pel rest h.2⟩

/-- `_prune_iter` preserves coercion closure of the elements. -/
theorem pruneIter_closed : ∀ pz pel xs, coClosedList xs = true →
    coClosedList (pruneIter pz pel xs) = true
  | _, _, [], h => h
  | pz, pel, x :: xs, h => by
      simp only [coClosedList, Bool.and_eq_true] at h
      simp only [pruneIter]
      split
      · exact pruneIter_closed pz pel xs h.2
      · have hv := pruneVal_closed pz pel x h.1
        split
        · rename_i es' hes
          rw [hes] at hv
          split
          · exact pruneIter_closed pz pel xs h.2
          · simp only [coClosedList, Bool.and_eq_true]
            exact ⟨hv, pruneIter_closed pz pel xs h.2⟩
        · rename_i ys' hys
          rw [hys] at hv
          split
          · simp only [coClosedList, Bool.and_eq_true]
            exact ⟨hv, pruneIter_closed pz pel xs h.2⟩
          · exact pruneIter_closed pz pel xs h.2
        · rename_i ys' hys
          rw [hys] at hv
          split
          · simp only [coClosedList, Bool.and_eq_true]
            exact ⟨hv, pruneIter_closed pz pel xs h.2⟩
          · exact pruneIter_closed pz pel xs h.2
        · simp only [coClosedList, Bool.and_eq_true]
          exact ⟨hv, pruneIter_closed pz pel xs h.2⟩
end

theorem extendCore_closed (f : Nat) (args : List PVal) (deep : Bool)
    (la : String) (v : PVal) (h : extendCore f args deep la = .ok v) :
    coClosed v = true := by
  unfold extendCore at h
  obtain ⟨acc, -, h⟩ := exceptBind_ok h
  exact construct_closed _ _ _ h

theorem extendLA_closed (f : Nat) (args : List PVal) (deep : Bool)
    (laOpt : Option PVal) (v : PVal) (h : extendLA f args deep laOpt = .ok v) :
    coClosed v = true := by
  rcases laOpt with - | lv
  · simp only [extendLA] at h
    exact extendCore_closed _ _ _ _ _ h
  · cases lv with
    | vstr s =>
        simp only [extendLA] at h
        by_cases hs : s = "replace" ∨ s = "append" ∨ s = "ammend"
        · rw [if_pos hs] at h
          exact extendCore_closed _ _ _ _ _ h
        · rw [if_neg hs] at h
          simp at h
    | vint i => simp [extendLA] at h
    | vbool b => simp [extendLA] at h
    | vnone => simp [extendLA] at h
    | node es => simp [extendLA] at h
    | raw es => simp [extendLA] at h
    | arr xs => simp [extendLA] at h
    | tup xs => simp [extendLA] at h

/-- Every successful top-level `extend` yields a coercion-closed `Dict`
(the final wrap through the constructor re-hooks everything). -/
theorem extendChecked_closed (f : Nat) (args : List PVal)
    (dOpt laOpt : Option PVal) (v : PVal)
    (h : extendChecked f args dOpt laOpt = .ok v) : coClosed v = true := by
  rcases dOpt with - | dv
  · simp only [extendChecked] at h
    exact extendLA_closed _ _ _ _ _ h
  · cases dv with
    | vbool b =>
        simp only [extendChecked] at h
        exact extendLA_closed _ _ _ _ _ h
    | vint i => simp [extendChecked] at h
    | vstr s => simp [extendChecked] at h
    | vnone => simp [extendChecked] at h
    | node es => simp [extendChecked] at h
    | raw es => simp [extendChecked] at h
    | arr xs => simp [extendChecked] at h
    | tup xs => simp [extendChecked] at h

/-- Every single operation preserves the coercion closure of the `Dict`. -/
theorem applyOp_closed (es : List (String × PVal)) (op : Op)
    (h : coClosedPairs es = true) : coClosedPairs (applyOp es op) = true := by
  cases op with
  | setIt k v => exact setitem_closed es k v h
  | getIt k =>
      simp only [applyOp, getitem]
      cases hg : getEntry es k with
      | some v => exact h
      | none => exact setitem_closed es k (.raw []) h
  | updateIt fs => exact updateEntries_closed es fs h
  | pruneIt pz pel => exact pruneEntries_closed pz pel es h
  | extendIt f args dOpt laOpt =>
      simp only [applyOp]
      cases hr : extendChecked f args dOpt laOpt with
      | error e => exact h
      | ok v =>
          cases v with
          | node es' =>
              have := extendChecked_closed f args dOpt laOpt _ hr
              simpa [coClosed] using this
          | raw fs => exact h
          | arr xs => exact h
          | tup xs => exact h
          | vint i => exact h
          | vstr s => exact h
          | vbool b => exact h
          | vnone => exact h

theorem runOps_closed : ∀ ops es, coClosedPairs es = true →
    coClosedPairs (runOps es ops) = true
  | [], _, h => h
  | op :: ops, es, h => runOps_closed ops (applyOp es op) (applyOp_closed es op h)

/-- Claim C2: every successful construction yields a `Dict` in which every
reachable map-like value — including maps nested inside sequences at any
depth — is itself a `Dict`; and every sequence of mutating operations
(store, autovivifying get, update, extend, prune) preserves this coercion
closure, because every write path runs the recursive hook. -/
theorem claim_C2 :
    (∀ args kws v, construct args kws = .ok v → coClosed v = true) ∧
    (∀ es ops, coClosed (.node es) = true →
      coClosed (.node (runOps es ops)) = true) :=
  ⟨construct_closed,
   fun es ops h => by
     simp only [coClosed] at h ⊢
     exact runOps_closed ops es h⟩

/-- Witness for claim C2: a construction from a nested plain structure and
a run of all five operation kinds, each coercion-closed. -/
theorem claim_C2_witness :
    coClosed (.node (runOps []
      [.getIt "a",
       .setIt "b" (.raw [("c", .arr [PVal.raw [("d", PVal.vint 0)]])]),
       .updateIt [("b", PVal.raw [("e", PVal.vint 2)])],
       .pruneIt false true,
       .extendIt 20 [PVal.raw [("f", PVal.vint 1)]] none none])) = true :=
  claim_C2.2 []
    [.getIt "a",
     .setIt "b" (.raw [("c", .arr [PVal.raw [("d", PVal.vint 0)]])]),
     .updateIt [("b", PVal.raw [("e", PVal.vint 2)])],
     .pruneIt false true,
     .extendIt 20 [PVal.raw [("f", PVal.vint 1)]] none none] rfl

/-! ## Claim C1 -/

theorem heap_get_append {α : Type} (l₁ l₂ : List α) (i : Nat)
    (h : i < l₁.length) : (l₁ ++ l₂).get? i = l₁.get? i := by
  rw [List.get?_eq_getElem?, List.get?_eq_getElem?,
    List.getElem?_append_left h]

theorem getEntryH_setEntryH_self (es : List (String × HVal)) (k : String)
    (v : HVal) : getEntryH (setEntryH es k v) k = some v := by
  induction es with
  | nil => simp [setEntryH, getEntryH]
  | cons p rest ih =>
      obtain ⟨k', v'⟩ := p
      by_cases hk : k' = k
      · simp [setEntryH, hk, getEntryH]
      · simp [setEntryH, hk, getEntryH, ih]

/-- The autovivification step of `__getitem__` on an absent key: the heap
grows by the literal empty dict and the fresh empty `Dict` built from it by
the hook; the parent node gets the key bound to the reference of that fresh
`Dict`; and the returned value is that very reference — the inserted child
itself, not a copy. -/
theorem autoviv_spec (f : Nat) (h0 : Heap) (a : Addr)
    (es : List (String × HVal)) (k : String) (v : HVal) (h' : Heap)
    (ha : h0.get? a = some (.node es)) (hk : getEntryH es k = none)
    (hg : getitemH f h0 a k = some (v, h')) :
    v = .ref (h0.length + 1) ∧
    h' = (h0 ++ [Obj.raw [], Obj.node []]).set a
      (.node (setEntryH es k (.ref (h0.length + 1)))) ∧
    h'.get? (h0.length + 1) = some (.node []) ∧
    h'.get? a = some (.node (setEntryH es k v)) ∧
    getEntryH (setEntryH es k v) k = some v := by
  obtain ⟨hlt, -⟩ := List.get?_eq_some.mp ha
  match f with
  | 0 => simp [getitemH] at hg
  | f₁ + 1 =>
    rw [getitemH, ha] at hg
    simp only [hk] at hg
    match f₁ with
    | 0 => simp [setitemH] at hg
    | f₂ + 1 =>
      rw [setitemH] at hg
      match f₂ with
      | 0 => simp [hookH] at hg
      | f₃ + 1 =>
        rw [hookH, List.get?_concat_length] at hg
        dsimp only at hg
        match f₃ with
        | 0 => simp [constructH] at hg
        | f₄ + 1 =>
          rw [constructH] at hg
          match f₄ with
          | 0 => simp [constructFillH] at hg
          | f₅ + 1 =>
            rw [constructFillH] at hg
            dsimp only [bind, Option.bind] at hg
            have hlt2 : a < (h0 ++ [Obj.raw []]).length := by
              simp
              exact Nat.lt_succ_of_lt hlt
            rw [heap_get_append _ _ _ hlt2, heap_get_append _ _ _ hlt,
              ha] at hg
            dsimp only [bind, Option.bind] at hg
            have hlt3 : a < (h0 ++ [Obj.raw []] ++ [Obj.node []]).length := by
              simp
              exact Nat.lt_succ_of_lt (Nat.lt_succ_of_lt hlt)
            rw [List.get?_set_eq_of_lt _ hlt3] at hg
            dsimp only [bind, Option.bind] at hg
            rw [getEntryH_setEntryH_self] at hg
            dsimp only [bind, Option.bind] at hg
            have hlen : (h0 ++ [Obj.raw []]).length = h0.length + 1 := by
              simp
            rw [hlen] at hg
            have hv : v = HVal.ref (h0.length + 1) := by
              cases hg
              rfl
            have hh' : h' = (h0 ++ [Obj.raw [], Obj.node []]).set a
                (.node (setEntryH es k (.ref (h0.length + 1)))) := by
              cases hg
              simp
            subst hv
            subst hh'
            refine ⟨rfl, rfl, ?_, ?_, getEntryH_setEntryH_self es k _⟩
            · rw [List.get?_set_ne _ _ (by omega)]
              have : h0 ++ [Obj.raw [], Obj.node []] =
                  (h0 ++ [Obj.raw []]) ++ [Obj.node []] := by simp
              rw [this, ← hlen]
              exact List.get?_concat_length _ _
            · rw [List.get?_set_eq_of_lt]
              simp
              exact Nat.lt_succ_of_lt (Nat.lt_succ_of_lt hlt)

/-- The path-write scenario on a fresh `Dict`: two autovivifying reads make
linked children at fresh addresses, the write stores through the second
child, and the subsequent reads see the written value through the parent
chain without further mutation; both intermediate children are non-empty
nodes. -/
theorem autoviv_scenario (i : Int) :
    ∃ ra rb h1 h2 h3,
      getitemH 9 [Obj.node []] 0 "a" = some (.ref ra, h1) ∧
      getitemH 9 h1 ra "b" = some (.ref rb, h2) ∧
      setitemH 9 h2 rb "c" (.hint i) = some h3 ∧
      getitemH 9 h3 0 "a" = some (.ref ra, h3) ∧
      getitemH 9 h3 ra "b" = some (.ref rb, h3) ∧
      getitemH 9 h3 rb "c" = some (.hint i, h3) ∧
      (∃ es1, h3.get? ra = some (.node es1) ∧ es1 ≠ []) ∧
      (∃ es2, h3.get? rb = some (.node es2) ∧ es2 ≠ []) := by
  refine ⟨2, 4,
    [Obj.node [("a", .ref 2)], .raw [], .node []],
    [Obj.node [("a", .ref 2)], .raw [], .node [("b", .ref 4)], .raw [],
      .node []],
    [Obj.node [("a", .ref 2)], .raw [], .node [("b", .ref 4)], .raw [],
      .node [("c", .hint i)]],
    rfl, rfl, rfl, rfl, rfl, rfl, ⟨_, rfl, by simp⟩, ⟨_, rfl, by simp⟩⟩

/-- Claim C1: reading an absent key through the get path inserts a fresh
empty `Dict` at that key and returns that inserted child itself (the same
heap reference that the parent now holds, not a disposable copy), so later
writes through the returned child are visible through the parent; in
particular on a fresh `Dict` the chained write of the form setting `c`
under `a.b` followed by the chained read returns the written value, with
the two intermediate children non-empty linked nodes. The attribute read
delegates to the same subscript read. -/
theorem claim_C1 :
    (∀ f h0 a es k v h',
      h0.get? a = some (.node es) → getEntryH es k = none →
      getitemH f h0 a k = some (v, h') →
      v = .ref (h0.length + 1) ∧
      h' = (h0 ++ [Obj.raw [], Obj.node []]).set a
        (.node (setEntryH es k (.ref (h0.length + 1)))) ∧
      h'.get? (h0.length + 1) = some (.node []) ∧
      h'.get? a = some (.node (setEntryH es k v)) ∧
      getEntryH (setEntryH es k v) k = some v) ∧
    (∀ i : Int,
      ∃ ra rb h1 h2 h3,
        getitemH 9 [Obj.node []] 0 "a" = some (.ref ra, h1) ∧
        getitemH 9 h1 ra "b" = some (.ref rb, h2) ∧
        setitemH 9 h2 rb "c" (.hint i) = some h3 ∧
        getitemH 9 h3 0 "a" = some (.ref ra, h3) ∧
        getitemH 9 h3 ra "b" = some (.ref rb, h3) ∧
        getitemH 9 h3 rb "c" = some (.hint i, h3) ∧
        (∃ es1, h3.get? ra = some (.node es1) ∧ es1 ≠ []) ∧
        (∃ es2, h3.get? rb = some (.node es2) ∧ es2 ≠ [])) :=
  ⟨autoviv_spec, autoviv_scenario⟩

/-- Witness for claim C1: the autovivifying read of `a` on a fresh
one-object heap. -/
theorem claim_C1_witness :
    HVal.ref 2 = HVal.ref ([Obj.node []].length + 1) ∧
    [Obj.node [("a", HVal.ref 2)], Obj.raw [], Obj.node []] =
      ([Obj.node []] ++ [Obj.raw [], Obj.node []]).set 0
        (.node (setEntryH [] "a" (.ref ([Obj.node []].length + 1)))) ∧
    [Obj.node [("a", HVal.ref 2)], Obj.raw [], Obj.node []].get?
      ([Obj.node []].length + 1) = some (.node []) ∧
    [Obj.node [("a", HVal.ref 2)], Obj.raw [], Obj.node []].get? 0 =
      some (.node (setEntryH [] "a" (.ref 2))) ∧
    getEntryH (setEntryH [] "a" (.ref 2)) "a" = some (.ref 2) :=
  claim_C1.1 9 [Obj.node []] 0 [] "a" (.ref 2)
    [Obj.node [("a", HVal.ref 2)], Obj.raw [], Obj.node []] rfl rfl rfl

/-! ## Claim C8: readback lemmas -/

theorem optBind_ok {α β : Type} {x : Option α} {f : α → Option β} {v : β}
    (h : (x >>= f) = some v) : ∃ a, x = some a ∧ f a = some v := by
  cases x with
  | none => simp [Option.bind] at h
  | some a => exact ⟨a, rfl, by simpa [Option.bind] using h⟩

mutual
/-- More fuel never changes a successful readback. -/
theorem readBackN_mono : ∀ f h v pv, readBackN f h v = some pv →
    readBackN (f + 1) h v = some pv
  | 0, _, _, _, hr => by simp [readBackN] at hr
  | f + 1, h, v, pv, hr => by
      cases v with
      | hint i => exact hr
      | hstr s => exact hr
      | hbool b => exact hr
      | hnone => exact hr
      | ref p =>
          rw [readBackN] at hr ⊢
          cases hp : h.get? p with
          | none =>
              rw [hp] at hr
              dsimp only at hr
              exact absurd hr (by simp)
          | some o =>
              rw [hp] at hr
              cases o with
              | node es =>
                  dsimp only at hr ⊢
                  by_cases hnd : keysND es = true
                  · rw [if_pos hnd] at hr ⊢
                    obtain ⟨ps, hps, hpv⟩ := Option.map_eq_some'.mp hr
                    rw [readPairsN_mono f h es ps hps]
                    simpa using hpv
                  · rw [if_neg hnd] at hr
                    exact absurd hr (by simp)
              | raw es =>
                  dsimp only at hr ⊢
                  by_cases hnd : keysND es = true
                  · rw [if_pos hnd] at hr ⊢
                    obtain ⟨ps, hps, hpv⟩ := Option.map_eq_some'.mp hr
                    rw [readPairsN_mono f h es ps hps]
                    simpa using hpv
                  · rw [if_neg hnd] at hr
                    exact absurd hr (by simp)
              | arr xs =>
                  dsimp only at hr ⊢
                  obtain ⟨ps, hps, hpv⟩ := Option.map_eq_some'.mp hr
                  rw [readElemsN_mono f h xs ps hps]
                  simpa using hpv
              | tup xs =>
                  dsimp only at hr ⊢
                  obtain ⟨ps, hps, hpv⟩ := Option.map_eq_some'.mp hr
                  rw [readElemsN_mono f h xs ps hps]
                  simpa using hpv

/-- More fuel never changes a successful pairs readback. -/
theorem readPairsN_mono : ∀ f h es ps, readPairsN f h es = some ps →
    readPairsN (f + 1) h es = some ps
  | 0, _, _, _, hr => by simp [readPairsN] at hr
  | f + 1, h, [], ps, hr => by simpa [readPairsN] using hr
  | f + 1, h, (k, v) :: rest, ps, hr => by
      rw [readPairsN] at hr ⊢
      obtain ⟨pv, hpv, hr⟩ := optBind_ok hr
      obtain ⟨ps', hps, hr⟩ := optBind_ok hr
      rw [readBackN_mono f h v pv hpv]
      dsimp only [bind, Option.bind]
      rw [readPairsN_mono f h rest ps' hps]
      dsimp only [bind, Option.bind]
      exact hr

/-- More fuel never changes a successful elements readback. -/
theorem readElemsN_mono : ∀ f h xs ps, readElemsN f h xs = some ps →
    readElemsN (f + 1) h xs = some ps
  | 0, _, _, _, hr => by simp [readElemsN] at hr
  | f + 1, h, [], ps, hr => by simpa [readElemsN] using hr
  | f + 1, h, x :: xs, ps, hr => by
      rw [readElemsN] at hr ⊢
      obtain ⟨pv, hpv, hr⟩ := optBind_ok hr
      obtain ⟨ps', hps, hr⟩ := optBind_ok hr
      rw [readBackN_mono f h x pv hpv]
      dsimp only [bind, Option.bind]
      rw [readElemsN_mono f h xs ps' hps]
      dsimp only [bind, Option.bind]
      exact hr
end

theorem readBackN_mono_le {f g : Nat} (h : Heap) (v : HVal) (pv : PV)
    (hle : f ≤ g) (hr : readBackN f h v = some pv) :
    readBackN g h v = some pv := by
  induction g with
  | zero =>
      cases Nat.le_zero.mp hle
      exact hr
  | succ g ih =>
      rcases Nat.lt_or_ge f (g + 1) with hlt | hge
      · exact readBackN_mono g h v pv (ih (Nat.lt_succ_iff.mp hlt))
      · cases Nat.le_antisymm hle hge
        exact hr

theorem readPairsN_mono_le {f g : Nat} (h : Heap)
    (es : List (String × HVal)) (ps : List (String × PV)) (hle : f ≤ g)
    (hr : readPairsN f h es = some ps) : readPairsN g h es = some ps := by
  induction g with
  | zero =>
      cases Nat.le_zero.mp hle
      exact hr
  | succ g ih =>
      rcases Nat.lt_or_ge f (g + 1) with hlt | hge
      · exact readPairsN_mono g h es ps (ih (Nat.lt_succ_iff.mp hlt))
      · cases Nat.le_antisymm hle hge
        exact hr

theorem readElemsN_mono_le {f g : Nat} (h : Heap) (xs : List HVal)
    (ps : List PV) (hle : f ≤ g) (hr : readElemsN f h xs = some ps) :
    readElemsN g h xs = some ps := by
  induction g with
  | zero =>
      cases Nat.le_zero.mp hle
      exact hr
  | succ g ih =>
      rcases Nat.lt_or_ge f (g + 1) with hlt | hge
      · exact readElemsN_mono g h xs ps (ih (Nat.lt_succ_iff.mp hlt))
      · cases Nat.le_antisymm hle hge
        exact hr

theorem get?_lt_length {α : Type} {l : List α} {i : Nat} {a : α}
    (h : l.get? i = some a) : i < l.length :=
  (List.get?_eq_some.mp h).1

mutual
/-- A successful readback is unchanged in any extension of the heap. -/
theorem readBackN_ext : ∀ f h h' v pv, HExt h h' →
    readBackN f h v = some pv → readBackN f h' v = some pv
  | 0, _, _, _, _, _, hr => by simp [readBackN] at hr
  | f + 1, h, h', v, pv, hext, hr => by
      cases v with
      | hint i => exact hr
      | hstr s => exact hr
      | hbool b => exact hr
      | hnone => exact hr
      | ref p =>
          rw [readBackN] at hr ⊢
          cases hp : h.get? p with
          | none =>
              rw [hp] at hr
              dsimp only at hr
              exact absurd hr (by simp)
          | some o =>
              rw [hp] at hr
              rw [hext.2 p (get?_lt_length hp), hp]
              cases o with
              | node es =>
                  dsimp only at hr ⊢
                  by_cases hnd : keysND es = true
                  · rw [if_pos hnd] at hr ⊢
                    obtain ⟨ps, hps, hpv⟩ := Option.map_eq_some'.mp hr
                    rw [readPairsN_ext f h h' es ps hext hps]
                    simpa using hpv
                  · rw [if_neg hnd] at hr
                    exact absurd hr (by simp)
              | raw es =>
                  dsimp only at hr ⊢
                  by_cases hnd : keysND es = true
                  · rw [if_pos hnd] at hr ⊢
                    obtain ⟨ps, hps, hpv⟩ := Option.map_eq_some'.mp hr
                    rw [readPairsN_ext f h h' es ps hext hps]
                    simpa using hpv
                  · rw [if_neg hnd] at hr
                    exact absurd hr (by simp)
              | arr xs =>
                  dsimp only at hr ⊢
                  obtain ⟨ps, hps, hpv⟩ := Option.map_eq_some'.mp hr
                  rw [readElemsN_ext f h h' xs ps hext hps]
                  simpa using hpv
              | tup xs =>
                  dsimp only at hr ⊢
                  obtain ⟨ps, hps, hpv⟩ := Option.map_eq_some'.mp hr
                  rw [readElemsN_ext f h h' xs ps hext hps]
                  simpa using hpv

/-- A successful pairs readback is unchanged in any extension. -/
theorem readPairsN_ext : ∀ f h h' es ps, HExt h h' →
    readPairsN f h es = some ps → readPairsN f h' es = some ps
  | 0, _, _, _, _, _, hr => by simp [readPairsN] at hr
  | f + 1, _, _, [], ps, _, hr => by simpa [readPairsN] using hr
  | f + 1, h, h', (k, v) :: rest, ps, hext, hr => by
      rw [readPairsN] at hr ⊢
      obtain ⟨pv, hpv, hr⟩ := optBind_ok hr
      obtain ⟨ps', hps, hr⟩ := optBind_ok hr
      rw [readBackN_ext f h h' v pv hext hpv]
      dsimp only [bind, Option.bind]
      rw [readPairsN_ext f h h' rest ps' hext hps]
      dsimp only [bind, Option.bind]
      exact hr

/-- A successful elements readback is unchanged in any extension. -/
theorem readElemsN_ext : ∀ f h h' xs ps, HExt h h' →
    readElemsN f h xs = some ps → readElemsN f h' xs = some ps
  | 0, _, _, _, _, _, hr => by simp [readElemsN] at hr
  | f + 1, _, _, [], ps, _, hr => by simpa [readElemsN] using hr
  | f + 1, h, h', x :: xs, ps, hext, hr => by
      rw [readElemsN] at hr ⊢
      obtain ⟨pv, hpv, hr⟩ := optBind_ok hr
      obtain ⟨ps', hps, hr⟩ := optBind_ok hr
      rw [readBackN_ext f h h' x pv hext hpv]
      dsimp only [bind, Option.bind]
      rw [readElemsN_ext f h h' xs ps' hext hps]
      dsimp only [bind, Option.bind]
      exact hr
end

theorem readPairsN_mem : ∀ f h es ps, readPairsN f h es = some ps →
    ∀ p ∈ es, ∃ pw, readBackN f h p.2 = some pw
  | 0, _, _, _, hr => by simp [readPairsN] at hr
  | f + 1, h, [], ps, _ => by simp
  | f + 1, h, (k, v) :: rest, ps, hr => by
      rw [readPairsN] at hr
      obtain ⟨pv, hpv, hr⟩ := optBind_ok hr
      obtain ⟨ps', hps, -⟩ := optBind_ok hr
      intro p hp
      rcases List.mem_cons.mp hp with rfl | hmem
      · exact ⟨pv, readBackN_mono f h v pv hpv⟩
      · obtain ⟨pw, hpw⟩ := readPairsN_mem f h rest ps' hps p hmem
        exact ⟨pw, readBackN_mono f h p.2 pw hpw⟩

theorem readElemsN_mem : ∀ f h xs ps, readElemsN f h xs = some ps →
    ∀ x ∈ xs, ∃ pw, readBackN f h x = some pw
  | 0, _, _, _, hr => by simp [readElemsN] at hr
  | f + 1, h, [], ps, _ => by simp
  | f + 1, h, y :: ys, ps, hr => by
      rw [readElemsN] at hr
      obtain ⟨pv, hpv, hr⟩ := optBind_ok hr
      obtain ⟨ps', hps, -⟩ := optBind_ok hr
      intro x hx
      rcases List.mem_cons.mp hx with rfl | hmem
      · exact ⟨pv, readBackN_mono f h x pv hpv⟩
      · obtain ⟨pw, hpw⟩ := readElemsN_mem f h ys ps' hps x hmem
        exact ⟨pw, readBackN_mono f h x pw hpw⟩

theorem readBackN_ref_get {f : Nat} {h : Heap} {a : Addr} {pv : PV}
    (hr : readBackN f h (.ref a) = some pv) : ∃ o, h.get? a = some o := by
  match f with
  | 0 => simp [readBackN] at hr
  | f + 1 =>
      rw [readBackN] at hr
      cases hp : h.get? a with
      | none =>
          rw [hp] at hr
          dsimp only at hr
          exact absurd hr (by simp)
      | some o => exact ⟨o, rfl⟩

/-- Every value held by an object with a successful readback has a
successful readback itself. -/
theorem readBackN_vals {f : Nat} {h : Heap} {a : Addr} {pv : PV} {o : Obj}
    (hr : readBackN f h (.ref a) = some pv) (hp : h.get? a = some o) :
    ∀ w ∈ o.vals, ∃ g pw, readBackN g h w = some pw := by
  match f with
  | 0 => simp [readBackN] at hr
  | f + 1 =>
      rw [readBackN, hp] at hr
      cases o with
      | node es =>
          dsimp only at hr
          by_cases hnd : keysND es = true
          · rw [if_pos hnd] at hr
            obtain ⟨ps, hps, -⟩ := Option.map_eq_some'.mp hr
            intro w hw
            obtain ⟨⟨k, v⟩, hpmem, rfl⟩ := List.mem_map.mp hw
            obtain ⟨pw, hpw⟩ := readPairsN_mem f h es ps hps _ hpmem
            exact ⟨f, pw, hpw⟩
          · rw [if_neg hnd] at hr
            exact absurd hr (by simp)
      | raw es =>
          dsimp only at hr
          by_cases hnd : keysND es = true
          · rw [if_pos hnd] at hr
            obtain ⟨ps, hps, -⟩ := Option.map_eq_some'.mp hr
            intro w hw
            obtain ⟨⟨k, v⟩, hpmem, rfl⟩ := List.mem_map.mp hw
            obtain ⟨pw, hpw⟩ := readPairsN_mem f h es ps hps _ hpmem
            exact ⟨f, pw, hpw⟩
          · rw [if_neg hnd] at hr
            exact absurd hr (by simp)
      | arr xs =>
          dsimp only at hr
          obtain ⟨ps, hps, -⟩ := Option.map_eq_some'.mp hr
          intro w hw
          obtain ⟨pw, hpw⟩ := readElemsN_mem f h xs ps hps w hw
          exact ⟨f, pw, hpw⟩
      | tup xs =>
          dsimp only at hr
          obtain ⟨ps, hps, -⟩ := Option.map_eq_some'.mp hr
          intro w hw
          obtain ⟨pw, hpw⟩ := readElemsN_mem f h xs ps hps w hw
          exact ⟨f, pw, hpw⟩

/-- In an extension of the heap, anything reachable from a value that read
back successfully in the old heap is an old address, reached already in the
old heap. -/
theorem reach_down {h h' : Heap} {v : HVal} {x : Addr}
    (hre : ReachV h' v x) (hext : HExt h h')
    (hrb : ∃ g pv, readBackN g h v = some pv) :
    ReachV h v x ∧ x < h.length := by
  induction hre with
  | here a =>
      obtain ⟨g, pv, hg⟩ := hrb
      obtain ⟨o, ho⟩ := readBackN_ref_get hg
      exact ⟨.here a, get?_lt_length ho⟩
  | via a o w x hget hmem hrw ih =>
      obtain ⟨g, pv, hg⟩ := hrb
      obtain ⟨o2, ho2⟩ := readBackN_ref_get hg
      have ha : a < h.length := get?_lt_length ho2
      have heq : h.get? a = some o := by rw [← hext.2 a ha]; exact hget
      obtain ⟨hr, hx⟩ := ih (readBackN_vals hg heq w hmem)
      exact ⟨.via a o w x heq hmem hr, hx⟩

/-- Everything reachable from a fresh-region value stays in the fresh
region when the fresh region is closed. -/
theorem reach_region {n : Nat} {h : Heap} (hNC : NewCl n h) :
    ∀ {v x}, ReachV h v x → FreshOk n v → n ≤ x := by
  intro v x hre
  induction hre with
  | here a => exact fun hf => hf a rfl
  | via a o w x hget hmem hrw ih =>
      intro hf
      have ha : n ≤ a := hf a rfl
      exact ih (hNC a o ha hget w hmem)

/-- Mutation at an address unreachable from a value adds nothing to what
the value reaches. -/
theorem reach_set_frame {h : Heap} {x0 : Addr} {o0 : Obj} :
    ∀ {v x}, ReachV (h.set x0 o0) v x → ¬ ReachV h v x0 → ReachV h v x := by
  intro v x hre
  induction hre with
  | here a => exact fun _ => .here a
  | via a o w y hget hmem hrw ih =>
      intro hn
      have hax : a ≠ x0 := fun he => hn (he ▸ .here a)
      rw [List.get?_set_ne _ _ (fun he => hax he.symm)] at hget
      have hnw : ¬ ReachV h w x0 := fun hw =>
        hn (.via a o w x0 hget hmem hw)
      exact .via a o w y hget hmem (ih hnw)

mutual
/-- Mutating an address unreachable from a value leaves its readback
unchanged. -/
theorem readBackN_set_frame : ∀ f h x0 o0 v pv, ¬ ReachV h v x0 →
    readBackN f h v = some pv → readBackN f (h.set x0 o0) v = some pv
  | 0, _, _, _, _, _, _, hr => by simp [readBackN] at hr
  | f + 1, h, x0, o0, v, pv, hnr, hr => by
      cases v with
      | hint i => exact hr
      | hstr s => exact hr
      | hbool b => exact hr
      | hnone => exact hr
      | ref p =>
          rw [readBackN] at hr ⊢
          cases hp : h.get? p with
          | none =>
              rw [hp] at hr
              dsimp only at hr
              exact absurd hr (by simp)
          | some o =>
              rw [hp] at hr
              have hpx : p ≠ x0 := fun he => hnr (he ▸ .here p)
              rw [List.get?_set_ne _ _ (fun he => hpx he.symm), hp]
              have hmv : ∀ w ∈ o.vals, ¬ ReachV h w x0 := fun w hw hrw =>
                hnr (.via p o w x0 hp hw hrw)
              cases o with
              | node es =>
                  dsimp only at hr ⊢
                  by_cases hnd : keysND es = true
                  · rw [if_pos hnd] at hr ⊢
                    obtain ⟨ps, hps, hpv⟩ := Option.map_eq_some'.mp hr
                    rw [readPairsN_set_frame f h x0 o0 es ps
                      (fun q hq => hmv q.2 (List.mem_map_of_mem _ hq)) hps]
                    simpa using hpv
                  · rw [if_neg hnd] at hr
                    exact absurd hr (by simp)
              | raw es =>
                  dsimp only at hr ⊢
                  by_cases hnd : keysND es = true
                  · rw [if_pos hnd] at hr ⊢
                    obtain ⟨ps, hps, hpv⟩ := Option.map_eq_some'.mp hr
                    rw [readPairsN_set_frame f h x0 o0 es ps
                      (fun q hq => hmv q.2 (List.mem_map_of_mem _ hq)) hps]
                    simpa using hpv
                  · rw [if_neg hnd] at hr
                    exact absurd hr (by simp)
              | arr xs =>
                  dsimp only at hr ⊢
                  obtain ⟨ps, hps, hpv⟩ := Option.map_eq_some'.mp hr
                  rw [readElemsN_set_frame f h x0 o0 xs ps hmv hps]
                  simpa using hpv
              | tup xs =>
                  dsimp only at hr ⊢
                  obtain ⟨ps, hps, hpv⟩ := Option.map_eq_some'.mp hr
                  rw [readElemsN_set_frame f h x0 o0 xs ps hmv hps]
                  simpa using hpv

/-- Frame rule for the pairs readback. -/
theorem readPairsN_set_frame : ∀ f h x0 o0 es ps,
    (∀ q ∈ es, ¬ ReachV h q.2 x0) → readPairsN f h es = some ps →
    readPairsN f (h.set x0 o0) es = some ps
  | 0, _, _, _, _, _, _, hr => by simp [readPairsN] at hr
  | f + 1, _, _, _, [], ps, _, hr => by simpa [readPairsN] using hr
  | f + 1, h, x0, o0, (k, v) :: rest, ps, hnr, hr => by
      rw [readPairsN] at hr ⊢
      obtain ⟨pv, hpv, hr⟩ := optBind_ok hr
      obtain ⟨ps', hps, hr⟩ := optBind_ok hr
      rw [readBackN_set_frame f h x0 o0 v pv
        (hnr (k, v) (List.mem_cons_self _ _)) hpv]
      dsimp only [bind, Option.bind]
      rw [readPairsN_set_frame f h x0 o0 rest ps'
        (fun q hq => hnr q (List.mem_cons_of_mem _ hq)) hps]
      dsimp only [bind, Option.bind]
      exact hr

/-- Frame rule for the elements readback. -/
theorem readElemsN_set_frame : ∀ f h x0 o0 xs ps,
    (∀ x ∈ xs, ¬ ReachV h x x0) → readElemsN f h xs = some ps →
    readElemsN f (h.set x0 o0) xs = some ps
  | 0, _, _, _, _, _, _, hr => by simp [readElemsN] at hr
  | f + 1, _, _, _, [], ps, _, hr => by simpa [readElemsN] using hr
  | f + 1, h, x0, o0, y :: ys, ps, hnr, hr => by
      rw [readElemsN] at hr ⊢
      obtain ⟨pv, hpv, hr⟩ := optBind_ok hr
      obtain ⟨ps', hps, hr⟩ := optBind_ok hr
      rw [readBackN_set_frame f h x0 o0 y pv
        (hnr y (List.mem_cons_self _ _)) hpv]
      dsimp only [bind, Option.bind]
      rw [readElemsN_set_frame f h x0 o0 ys ps'
        (fun x hx => hnr x (List.mem_cons_of_mem _ hx)) hps]
      dsimp only [bind, Option.bind]
      exact hr
end

theorem HExt_refl (h : Heap) : HExt h h := ⟨Nat.le_refl _, fun _ _ => rfl⟩

theorem HExt_trans {h₁ h₂ h₃ : Heap} (a : HExt h₁ h₂) (b : HExt h₂ h₃) :
    HExt h₁ h₃ :=
  ⟨Nat.le_trans a.1 b.1,
   fun i hi => (b.2 i (Nat.lt_of_lt_of_le hi a.1)).trans (a.2 i hi)⟩

theorem HExt_append (h : Heap) (t : Heap) : HExt h (h ++ t) :=
  ⟨by simp, fun i hi => heap_get_append h t i hi⟩

theorem HExt_set_ge {h h' : Heap} (hext : HExt h h') {a : Addr} (o : Obj)
    (ha : h.length ≤ a) : HExt h (h'.set a o) := by
  refine ⟨by simp [hext.1], fun i hi => ?_⟩
  rw [List.get?_set_ne _ _ (by omega)]
  exact hext.2 i hi

theorem NewCl_top (h : Heap) : NewCl h.length h := by
  intro a o ha hget w hw
  exact absurd (get?_lt_length hget) (by omega)

theorem NewCl_set {n : Nat} {h : Heap} (hNC : NewCl n h) {a : Addr} {o : Obj}
    (ha : n ≤ a) (hvals : ∀ w ∈ o.vals, FreshOk n w) :
    NewCl n (h.set a o) := by
  intro b ob hb hget w hw
  by_cases hba : b = a
  · subst hba
    by_cases hlt : b < h.length
    · rw [List.get?_set_eq_of_lt _ hlt] at hget
      cases hget
      exact hvals w hw
    · rw [List.set_eq_of_length_le (by omega)] at hget
      exact hNC b ob hb hget w hw
  · rw [List.get?_set_ne _ _ (fun he => hba he.symm)] at hget
    exact hNC b ob hb hget w hw

theorem get?_append_cases {α : Type} (l t : List α) (i : Nat) (a : α)
    (h : (l ++ t).get? i = some a) :
    (i < l.length ∧ l.get? i = some a) ∨
    (l.length ≤ i ∧ t.get? (i - l.length) = some a) := by
  by_cases hi : i < l.length
  · left
    exact ⟨hi, by rw [← heap_get_append l t i hi]; exact h⟩
  · right
    refine ⟨by omega, ?_⟩
    rw [List.get?_eq_getElem?] at h ⊢
    rw [List.getElem?_append_right (by omega)] at h
    exact h

theorem NewCl_append_node {n : Nat} {h : Heap} (hNC : NewCl n h) :
    NewCl n (h ++ [Obj.node []]) := by
  intro a o ha hget w hw
  rcases get?_append_cases h [Obj.node []] a o hget with ⟨hlt, hg⟩ | ⟨hge, hg⟩
  · exact hNC a o ha hg w hw
  · rcases Nat.lt_or_ge (a - h.length) 1 with h1 | h1
    · interval_cases ha' : (a - h.length)
      · simp [List.get?] at hg
        cases hg
        simp [Obj.vals] at hw
    · rw [List.get?_eq_getElem?] at hg
      rw [List.getElem?_eq_none (by simpa using h1)] at hg
      exact absurd hg (by simp)

theorem mem_vals_setEntryH {es : List (String × HVal)} {k : String}
    {v' w : HVal} (hw : w ∈ (Obj.node (setEntryH es k v')).vals) :
    w = v' ∨ w ∈ (Obj.node es).vals := by
  simp only [Obj.vals] at hw ⊢
  induction es with
  | nil => simpa [setEntryH] using hw
  | cons p rest ih =>
      obtain ⟨k', v₀⟩ := p
      by_cases hk : k' = k
      · simp only [setEntryH, hk, if_true] at hw
        rcases List.mem_cons.mp hw with rfl | hmem
        · exact Or.inl rfl
        · exact Or.inr (by simp [hmem])
      · simp only [setEntryH, hk, if_false] at hw
        rcases List.mem_cons.mp hw with rfl | hmem
        · exact Or.inr (by simp)
        · rcases ih hmem with h1 | h2
          · exact Or.inl h1
          · exact Or.inr (by simp at h2 ⊢; tauto)

theorem setEntryH_append_absent {es : List (String × HVal)} {k : String}
    (v : HVal) (h : getEntryH es k = none) :
    setEntryH es k v = es ++ [(k, v)] := by
  induction es with
  | nil => simp [setEntryH]
  | cons p rest ih =>
      obtain ⟨k', v'⟩ := p
      simp only [getEntryH] at h
      by_cases hk : k' = k
      · simp [hk] at h
      · simp only [setEntryH, hk, if_false]
        rw [ih (by simpa [hk] using h)]
        simp

theorem getEntryH_append_none {es fs : List (String × HVal)} {k : String}
    (h : getEntryH es k = none) :
    getEntryH (es ++ fs) k = getEntryH fs k := by
  induction es with
  | nil => simp
  | cons p rest ih =>
      obtain ⟨k', v'⟩ := p
      simp only [getEntryH] at h
      by_cases hk : k' = k
      · simp [hk] at h
      · simp only [List.cons_append, getEntryH, hk, if_false]
        exact ih (by simpa [hk] using h)

theorem getEntryH_eq_none_iff {es : List (String × HVal)} {k : String} :
    getEntryH es k = none ↔ k ∉ es.map (·.1) := by
  induction es with
  | nil => simp [getEntryH]
  | cons p rest ih =>
      obtain ⟨k', v'⟩ := p
      by_cases hk : k' = k
      · simp [getEntryH, hk]
      · simp [getEntryH, hk, ih, Ne.symm hk]

theorem keysND_congr : ∀ {es₁ es₂ : List (String × HVal)},
    es₁.map (·.1) = es₂.map (·.1) → keysND es₁ = keysND es₂
  | [], [], _ => rfl
  | [], (q :: _), h => by simp at h
  | (p :: _), [], h => by simp at h
  | (p :: r₁), (q :: r₂), h => by
      simp only [List.map_cons, List.cons.injEq] at h
      simp only [keysND]
      have hn : (getEntryH r₁ p.1).isNone = (getEntryH r₂ q.1).isNone := by
        by_cases h1 : getEntryH r₁ p.1 = none
        · have h2 : getEntryH r₂ q.1 = none := by
            rw [getEntryH_eq_none_iff] at h1 ⊢
            rw [← h.2, ← h.1]
            exact h1
          simp [h1, h2]
        · have h2 : ¬ getEntryH r₂ q.1 = none := by
            rw [getEntryH_eq_none_iff] at h1 ⊢
            rw [← h.2, ← h.1]
            exact h1
          cases hg1 : getEntryH r₁ p.1 with
          | none => exact absurd hg1 h1
          | some w1 =>
              cases hg2 : getEntryH r₂ q.1 with
              | none => exact absurd hg2 h2
              | some w2 => simp
      rw [hn, keysND_congr h.2]

theorem FreshOk_mono {n m : Nat} {w : HVal} (hnm : n ≤ m)
    (h : FreshOk m w) : FreshOk n w :=
  fun b hb => Nat.le_trans hnm (h b hb)

theorem NewCl_append_obj {n : Nat} {h : Heap} {o : Obj} (hNC : NewCl n h)
    (hvals : ∀ w ∈ o.vals, FreshOk n w) : NewCl n (h ++ [o]) := by
  intro a ob ha hget w hw
  rcases get?_append_cases h [o] a ob hget with ⟨hlt, hg⟩ | ⟨hge, hg⟩
  · exact hNC a ob ha hg w hw
  · rcases Nat.lt_or_ge (a - h.length) 1 with h1 | h1
    · interval_cases ha' : (a - h.length)
      · simp [List.get?] at hg
        cases hg
        exact hvals w hw
    · rw [List.get?_eq_getElem?] at hg
      rw [List.getElem?_eq_none (by simpa using h1)] at hg
      exact absurd hg (by simp)

theorem readPairsN_nil_inv {g : Nat} {h : Heap} {ps : List (String × PV)}
    (hr : readPairsN g h [] = some ps) : ps = [] := by
  match g with
  | 0 => simp [readPairsN] at hr
  | g + 1 =>
      rw [readPairsN] at hr
      cases hr
      rfl

theorem readPairsN_cons_inv {g : Nat} {h : Heap} {k : String} {v : HVal}
    {rest : List (String × HVal)} {ps : List (String × PV)}
    (hr : readPairsN g h ((k, v) :: rest) = some ps) :
    ∃ g₀ pv psr, g = g₀ + 1 ∧ readBackN g₀ h v = some pv ∧
      readPairsN g₀ h rest = some psr ∧ ps = (k, pv) :: psr := by
  match g with
  | 0 => simp [readPairsN] at hr
  | g + 1 =>
      rw [readPairsN] at hr
      obtain ⟨pv, hpv, hr⟩ := optBind_ok hr
      obtain ⟨psr, hps, hr⟩ := optBind_ok hr
      cases hr
      exact ⟨g, pv, psr, rfl, hpv, hps, rfl⟩

theorem readElemsN_nil_inv {g : Nat} {h : Heap} {ps : List PV}
    (hr : readElemsN g h [] = some ps) : ps = [] := by
  match g with
  | 0 => simp [readElemsN] at hr
  | g + 1 =>
      rw [readElemsN] at hr
      cases hr
      rfl

theorem readElemsN_cons_inv {g : Nat} {h : Heap} {x : HVal} {xs : List HVal}
    {ps : List PV} (hr : readElemsN g h (x :: xs) = some ps) :
    ∃ g₀ pv psr, g = g₀ + 1 ∧ readBackN g₀ h x = some pv ∧
      readElemsN g₀ h xs = some psr ∧ ps = pv :: psr := by
  match g with
  | 0 => simp [readElemsN] at hr
  | g + 1 =>
      rw [readElemsN] at hr
      obtain ⟨pv, hpv, hr⟩ := optBind_ok hr
      obtain ⟨psr, hps, hr⟩ := optBind_ok hr
      cases hr
      exact ⟨g, pv, psr, rfl, hpv, hps, rfl⟩

theorem readBackN_node_inv {g : Nat} {h : Heap} {p : Addr} {pv : PV}
    {es : List (String × HVal)} (hr : readBackN g h (.ref p) = some pv)
    (hp : h.get? p = some (.node es)) :
    keysND es = true ∧
    ∃ g₀ ps, readPairsN g₀ h es = some ps ∧ pv = .pmap ps := by
  match g with
  | 0 => simp [readBackN] at hr
  | g + 1 =>
      rw [readBackN, hp] at hr
      dsimp only at hr
      by_cases hnd : keysND es = true
      · rw [if_pos hnd] at hr
        obtain ⟨ps, hps, hpv⟩ := Option.map_eq_some'.mp hr
        exact ⟨hnd, g, ps, hps, hpv.symm⟩
      · rw [if_neg hnd] at hr
        exact absurd hr (by simp)

theorem readBackN_raw_inv {g : Nat} {h : Heap} {p : Addr} {pv : PV}
    {es : List (String × HVal)} (hr : readBackN g h (.ref p) = some pv)
    (hp : h.get? p = some (.raw es)) :
    keysND es = true ∧
    ∃ g₀ ps, readPairsN g₀ h es = some ps ∧ pv = .pmap ps := by
  match g with
  | 0 => simp [readBackN] at hr
  | g + 1 =>
      rw [readBackN, hp] at hr
      dsimp only at hr
      by_cases hnd : keysND es = true
      · rw [if_pos hnd] at hr
        obtain ⟨ps, hps, hpv⟩ := Option.map_eq_some'.mp hr
        exact ⟨hnd, g, ps, hps, hpv.symm⟩
      · rw [if_neg hnd] at hr
        exact absurd hr (by simp)

theorem readBackN_arr_inv {g : Nat} {h : Heap} {p : Addr} {pv : PV}
    {xs : List HVal} (hr : readBackN g h (.ref p) = some pv)
    (hp : h.get? p = some (.arr xs)) :
    ∃ g₀ ps, readElemsN g₀ h xs = some ps ∧ pv = .parr ps := by
  match g with
  | 0 => simp [readBackN] at hr
  | g + 1 =>
      rw [readBackN, hp] at hr
      dsimp only at hr
      obtain ⟨ps, hps, hpv⟩ := Option.map_eq_some'.mp hr
      exact ⟨g, ps, hps, hpv.symm⟩

theorem readBackN_tup_inv {g : Nat} {h : Heap} {p : Addr} {pv : PV}
    {xs : List HVal} (hr : readBackN g h (.ref p) = some pv)
    (hp : h.get? p = some (.tup xs)) :
    ∃ g₀ ps, readElemsN g₀ h xs = some ps ∧ pv = .ptup ps := by
  match g with
  | 0 => simp [readBackN] at hr
  | g + 1 =>
      rw [readBackN, hp] at hr
      dsimp only at hr
      obtain ⟨ps, hps, hpv⟩ := Option.map_eq_some'.mp hr
      exact ⟨g, ps, hps, hpv.symm⟩

theorem readPairsN_append {g₁ g₂ : Nat} {h : Heap}
    {c₁ c₂ : List (String × HVal)} {p₁ p₂ : List (String × PV)}
    (h₁ : readPairsN g₁ h c₁ = some p₁) (h₂ : readPairsN g₂ h c₂ = some p₂) :
    readPairsN (g₁ + g₂) h (c₁ ++ c₂) = some (p₁ ++ p₂) := by
  induction c₁ generalizing g₁ p₁ with
  | nil =>
      cases readPairsN_nil_inv h₁
      simpa using readPairsN_mono_le h c₂ p₂ (by omega) h₂
  | cons q rest ih =>
      obtain ⟨k, v⟩ := q
      obtain ⟨g₀, pv, psr, rfl, hv, hrest, rfl⟩ := readPairsN_cons_inv h₁
      have hv' : readBackN (g₀ + g₂) h v = some pv :=
        readBackN_mono_le h v pv (by omega) hv
      have hrest' : readPairsN (g₀ + g₂) h (rest ++ c₂) = some (psr ++ p₂) :=
        ih hrest
      show readPairsN (g₀ + 1 + g₂) h ((k, v) :: (rest ++ c₂)) =
        some ((k, pv) :: (psr ++ p₂))
      have : g₀ + 1 + g₂ = (g₀ + g₂) + 1 := by omega
      rw [this, readPairsN, hv']
      dsimp only [bind, Option.bind]
      rw [hrest']

mutual
theorem hookH_spec : ∀ f h v v' h₁, hookH f h v = some (v', h₁) →
    HExt h h₁ ∧ FreshOk h.length v' ∧
    (∀ n, n ≤ h.length → NewCl n h → NewCl n h₁) ∧
    (∀ g pv, readBackN g h v = some pv → ∃ g', readBackN g' h₁ v' = some pv)
  | 0, _, _, _, _, hr => by simp [hookH] at hr
  | f + 1, h, v, v', h₁, hr => by
      cases v with
      | hint i =>
          simp only [hookH] at hr
          cases hr
          refine ⟨HExt_refl h, ?_, fun n _ hn => hn, fun g pv hg => ⟨g, hg⟩⟩
          intro b hb
          cases hb
      | hstr s =>
          simp only [hookH] at hr
          cases hr
          refine ⟨HExt_refl h, ?_, fun n _ hn => hn, fun g pv hg => ⟨g, hg⟩⟩
          intro b hb
          cases hb
      | hbool b =>
          simp only [hookH] at hr
          cases hr
          refine ⟨HExt_refl h, ?_, fun n _ hn => hn, fun g pv hg => ⟨g, hg⟩⟩
          intro b hb
          cases hb
      | hnone =>
          simp only [hookH] at hr
          cases hr
          refine ⟨HExt_refl h, ?_, fun n _ hn => hn, fun g pv hg => ⟨g, hg⟩⟩
          intro b hb
          cases hb
      | ref p =>
          rw [hookH] at hr
          cases hp : h.get? p with
          | none => rw [hp] at hr; exact absurd hr (by simp)
          | some o =>
              rw [hp] at hr
              cases o with
              | node es =>
                  dsimp only at hr
                  obtain ⟨hrv, hext, hnc, hrb⟩ :=
                    constructH_spec f h es v' h₁ hr
                  refine ⟨hext, ?_, hnc, ?_⟩
                  · subst hrv
                    exact fun b hb => by cases hb; exact Nat.le_refl _
                  · intro g pv hg
                    obtain ⟨hnd, g₀, ps, hps, rfl⟩ :=
                      readBackN_node_inv hg hp
                    exact hrb g₀ ps hnd hps
              | raw es =>
                  dsimp only at hr
                  obtain ⟨hrv, hext, hnc, hrb⟩ :=
                    constructH_spec f h es v' h₁ hr
                  refine ⟨hext, ?_, hnc, ?_⟩
                  · subst hrv
                    exact fun b hb => by cases hb; exact Nat.le_refl _
                  · intro g pv hg
                    obtain ⟨hnd, g₀, ps, hps, rfl⟩ :=
                      readBackN_raw_inv hg hp
                    exact hrb g₀ ps hnd hps
              | arr xs =>
                  dsimp only at hr
                  obtain ⟨⟨ys, h₂⟩, hl, hr⟩ := optBind_ok hr
                  cases hr
                  obtain ⟨hext, hfr, hnc, hrb⟩ :=
                    hookListH_spec f h xs ys h₂ hl
                  refine ⟨HExt_trans hext (HExt_append h₂ [Obj.arr ys]), ?_,
                    fun n hn hcl => ?_, fun g pv hg => ?_⟩
                  · intro b hb
                    cases hb
                    exact hext.1
                  · exact NewCl_append_obj (hnc n hn hcl)
                      (fun w hw => FreshOk_mono hn (hfr w hw))
                  · obtain ⟨g₀, ps, hps, rfl⟩ := readBackN_arr_inv hg hp
                    obtain ⟨g', hys⟩ := hrb g₀ ps hps
                    refine ⟨g' + 1, ?_⟩
                    rw [readBackN, List.get?_concat_length]
                    dsimp only
                    rw [readElemsN_ext g' h₂ (h₂ ++ [Obj.arr ys]) ys ps
                      (HExt_append h₂ _) hys]
                    rfl
              | tup xs =>
                  dsimp only at hr
                  obtain ⟨⟨ys, h₂⟩, hl, hr⟩ := optBind_ok hr
                  cases hr
                  obtain ⟨hext, hfr, hnc, hrb⟩ :=
                    hookListH_spec f h xs ys h₂ hl
                  refine ⟨HExt_trans hext (HExt_append h₂ [Obj.tup ys]), ?_,
                    fun n hn hcl => ?_, fun g pv hg => ?_⟩
                  · intro b hb
                    cases hb
                    exact hext.1
                  · exact NewCl_append_obj (hnc n hn hcl)
                      (fun w hw => FreshOk_mono hn (hfr w hw))
                  · obtain ⟨g₀, ps, hps, rfl⟩ := readBackN_tup_inv hg hp
                    obtain ⟨g', hys⟩ := hrb g₀ ps hps
                    refine ⟨g' + 1, ?_⟩
                    rw [readBackN, List.get?_concat_length]
                    dsimp only
                    rw [readElemsN_ext g' h₂ (h₂ ++ [Obj.tup ys]) ys ps
                      (HExt_append h₂ _) hys]
                    rfl

theorem hookListH_spec : ∀ f h xs ys h₁, hookListH f h xs = some (ys, h₁) →
    HExt h h₁ ∧ (∀ y ∈ ys, FreshOk h.length y) ∧
    (∀ n, n ≤ h.length → NewCl n h → NewCl n h₁) ∧
    (∀ g ps, readElemsN g h xs = some ps →
      ∃ g', readElemsN g' h₁ ys = some ps)
  | 0, _, _, _, _, hr => by simp [hookListH] at hr
  | f + 1, h, [], ys, h₁, hr => by
      rw [hookListH] at hr
      cases hr
      refine ⟨HExt_refl h, by simp, fun n _ hn => hn, fun g ps hg => ?_⟩
      cases readElemsN_nil_inv hg
      exact ⟨1, rfl⟩
  | f + 1, h, x :: xs, ys, h₁, hr => by
      rw [hookListH] at hr
      obtain ⟨⟨y, hA⟩, hx, hr⟩ := optBind_ok hr
      obtain ⟨⟨ys', h₂⟩, hxs, hr⟩ := optBind_ok hr
      cases hr
      obtain ⟨hextA, hfrA, hncA, hrbA⟩ := hookH_spec f h x y hA hx
      obtain ⟨hextB, hfrB, hncB, hrbB⟩ := hookListH_spec f hA xs ys' h₁ hxs
      refine ⟨HExt_trans hextA hextB, ?_, ?_, ?_⟩
      · intro z hz
        rcases List.mem_cons.mp hz with rfl | hmem
        · exact hfrA
        · exact FreshOk_mono hextA.1 (hfrB z hmem)
      · intro n hn hcl
        exact hncB n (Nat.le_trans hn hextA.1) (hncA n hn hcl)
      · intro g ps hg
        obtain ⟨g₀, pv, psr, rfl, hx', hxs', rfl⟩ := readElemsN_cons_inv hg
        obtain ⟨gy, hy⟩ := hrbA g₀ pv hx'
        have hxs'' : readElemsN g₀ hA xs = some psr :=
          readElemsN_ext g₀ h hA xs psr hextA hxs'
        obtain ⟨gz, hz⟩ := hrbB g₀ psr hxs''
        have hy' : readBackN (max gy gz) h₁ y = some pv :=
          readBackN_mono_le h₁ y pv (Nat.le_max_left _ _)
            (readBackN_ext gy hA h₁ y pv hextB hy)
        have hz' : readElemsN (max gy gz) h₁ ys' = some psr :=
          readElemsN_mono_le h₁ ys' psr (Nat.le_max_right _ _) hz
        refine ⟨max gy gz + 1, ?_⟩
        rw [readElemsN, hy']
        dsimp only [bind, Option.bind]
        rw [hz']

theorem constructH_spec : ∀ f h es rv h₁, constructH f h es = some (rv, h₁) →
    rv = .ref h.length ∧ HExt h h₁ ∧
    (∀ n, n ≤ h.length → NewCl n h → NewCl n h₁) ∧
    (∀ g ps, keysND es = true → readPairsN g h es = some ps →
      ∃ g', readBackN g' h₁ rv = some (.pmap ps))
  | 0, _, _, _, _, hr => by simp [constructH] at hr
  | f + 1, h, es, rv, h₁, hr => by
      rw [constructH] at hr
      obtain ⟨hB, hfill, hr⟩ := optBind_ok hr
      cases hr
      have ha0 : h.length < (h ++ [Obj.node []]).length := by simp
      obtain ⟨⟨hlen, hunt⟩, hncF, hcond⟩ :=
        constructFillH_spec f (h ++ [Obj.node []]) h.length es h₁ hfill ha0
      have hextApp : HExt h (h ++ [Obj.node []]) := HExt_append h _
      refine ⟨rfl, ?_, ?_, ?_⟩
      · refine ⟨?_, fun i hi => ?_⟩
        · have h2 := hlen
          simp only [List.length_append, List.length_cons,
            List.length_nil] at h2
          omega
        · rw [hunt i (by simp only [List.length_append, List.length_cons,
            List.length_nil]; omega) (by omega)]
          exact heap_get_append h _ i hi
      · intro n hn hcl
        refine hncF n hn (NewCl_append_obj hcl ?_)
        simp [Obj.vals]
      · intro g ps hnd hps
        have hesavoid : ∀ p ∈ es, ∀ x,
            ReachV (h ++ [Obj.node []]) p.2 x → x ≠ h.length := by
          intro p hp x hre
          obtain ⟨pw, hpw⟩ := readPairsN_mem g h es ps hps p hp
          exact Nat.ne_of_lt (reach_down hre hextApp ⟨g, pw, hpw⟩).2
        obtain ⟨newEs, g', hnew, hkeys, hrb⟩ :=
          hcond [] [] ps g 1 (List.get?_concat_length _ _) hnd
            (fun _ _ => rfl) (by simp [Obj.vals]) hesavoid rfl
            (readPairsN_ext g h _ es ps hextApp hps)
        have hndnew : keysND newEs = true := by
          rw [keysND_congr (show newEs.map (·.1) = es.map (·.1) by
            simpa using hkeys)]
          exact hnd
        refine ⟨g' + 1, ?_⟩
        rw [readBackN, hnew]
        dsimp only
        rw [if_pos hndnew]
        simp only [List.nil_append] at hrb
        rw [hrb]
        rfl

theorem constructFillH_spec : ∀ f hh a0 es h₁,
    constructFillH f hh a0 es = some h₁ → a0 < hh.length →
    (hh.length ≤ h₁.length ∧
      ∀ i, i < hh.length → i ≠ a0 → h₁.get? i = hh.get? i) ∧
    (∀ n, n ≤ a0 → NewCl n hh → NewCl n h₁) ∧
    (∀ cur psCur ps g gc,
       hh.get? a0 = some (.node cur) →
       keysND es = true →
       (∀ p ∈ es, getEntryH cur p.1 = none) →
       (∀ w ∈ (Obj.node cur).vals, ∀ x, ReachV hh w x → x ≠ a0) →
       (∀ p ∈ es, ∀ x, ReachV hh p.2 x → x ≠ a0) →
       readPairsN gc hh cur = some psCur →
       readPairsN g hh es = some ps →
       ∃ newEs g',
         h₁.get? a0 = some (.node newEs) ∧
         newEs.map (·.1) = cur.map (·.1) ++ es.map (·.1) ∧
         readPairsN g' h₁ newEs = some (psCur ++ ps))
  | 0, _, _, _, _, hr => by simp [constructFillH] at hr
  | f + 1, hh, a0, [], h₁, hr => by
      rw [constructFillH] at hr
      cases hr
      intro ha0
      refine ⟨⟨Nat.le_refl _, fun i _ _ => rfl⟩, fun n _ hn => hn, ?_⟩
      intro cur psCur ps g gc hcur hnd hdisj havoid hesavoid hrbc hrbes
      cases readPairsN_nil_inv hrbes
      exact ⟨cur, gc, hcur, by simp, by simpa using hrbc⟩
  | f + 1, hh, a0, (k, v) :: rest, h₁, hr => by
      rw [constructFillH] at hr
      obtain ⟨hB, hset, hr⟩ := optBind_ok hr
      intro ha0
      match f, hset, hr with
      | f₂ + 1, hset, hr => ?_
      rw [setitemH] at hset
      obtain ⟨⟨v', hA⟩, hhook, hset⟩ := optBind_ok hset
      dsimp only at hset
      obtain ⟨hextA, hfrA, hncA, hrbA⟩ := hookH_spec f₂ hh v v' hA hhook
      cases hga : hA.get? a0 with
      | none => rw [hga] at hset; exact absurd hset (by simp)
      | some o =>
          rw [hga] at hset
          cases o with
          | raw es2 => exact absurd hset (by simp)
          | arr xs2 => exact absurd hset (by simp)
          | tup xs2 => exact absurd hset (by simp)
          | node curA =>
          dsimp only at hset
          cases hset
          have hgh : hh.get? a0 = some (.node curA) := by
            rw [← hextA.2 a0 ha0]
            exact hga
          have hlenA : a0 < hA.length := Nat.lt_of_lt_of_le ha0 hextA.1
          have hlenB : a0 <
              (hA.set a0 (Obj.node (setEntryH curA k v'))).length := by
            simpa using hlenA
          obtain ⟨⟨hlenI, huntI⟩, hncI, hcondI⟩ :=
            constructFillH_spec (f₂ + 1)
              (hA.set a0 (Obj.node (setEntryH curA k v'))) a0 rest h₁ hr hlenB
          have hNCtop : NewCl hh.length hA :=
            hncA hh.length (Nat.le_refl _) (NewCl_top hh)
          refine ⟨⟨?_, ?_⟩, ?_, ?_⟩
          · have h2 : hA.length =
                (hA.set a0 (Obj.node (setEntryH curA k v'))).length := by simp
            have h3 := hextA.1
            omega
          · intro i hi hia
            rw [huntI i (by
                simp only [List.length_set]
                exact Nat.lt_of_lt_of_le hi hextA.1) hia,
              List.get?_set_ne _ _ (fun he => hia he.symm)]
            exact hextA.2 i hi
          · intro n hn hcl
            have hnh : n ≤ hh.length := Nat.le_trans hn (Nat.le_of_lt ha0)
            have hcurfr : ∀ w ∈ (Obj.node curA).vals, FreshOk n w :=
              hcl a0 (Obj.node curA) hn hgh
            have hBcl : NewCl n (hA.set a0 (Obj.node (setEntryH curA k v'))) := by
              refine NewCl_set (hncA n hnh hcl) hn ?_
              intro w hw
              rcases mem_vals_setEntryH hw with rfl | hmem
              · exact FreshOk_mono hnh hfrA
              · exact hcurfr w hmem
            exact hncI n hn hBcl
          · intro cur psCur ps g gc hcur hnd hdisj havoid hesavoid hrbc hrbes
            rw [hgh] at hcur
            obtain rfl : curA = cur := by cases hcur; rfl
            simp only [keysND, Bool.and_eq_true,
              Option.isNone_iff_eq_none] at hnd
            obtain ⟨hkabs, hndr⟩ := hnd
            obtain ⟨g₀, pv₀, psr, rfl, hv₀, hrestes, rfl⟩ :=
              readPairsN_cons_inv hrbes
            obtain ⟨gv, hgv⟩ := hrbA g₀ pv₀ hv₀
            have hsetapp : setEntryH curA k v' = curA ++ [(k, v')] :=
              setEntryH_append_absent v' (hdisj (k, v) (List.mem_cons_self _ _))
            have avoidV' : ¬ ReachV hA v' a0 := by
              intro hre
              have := reach_region hNCtop hre hfrA
              exact absurd ha0 (Nat.not_lt.mpr this)
            have hcurnr : ∀ w ∈ (Obj.node curA).vals, ¬ ReachV hA w a0 := by
              intro w hw hre
              obtain ⟨⟨kw, vw⟩, hqm, rfl⟩ := List.mem_map.mp hw
              obtain ⟨pw, hpw⟩ := readPairsN_mem gc hh curA psCur hrbc _ hqm
              exact havoid _ hw a0
                (reach_down hre hextA ⟨gc, pw, hpw⟩).1 rfl
            have hrestnr : ∀ q ∈ rest, ¬ ReachV hA q.2 a0 := by
              intro q hq hre
              obtain ⟨pw, hpw⟩ := readPairsN_mem g₀ hh rest psr hrestes q hq
              exact hesavoid q (List.mem_cons_of_mem _ hq) a0
                (reach_down hre hextA ⟨g₀, pw, hpw⟩).1 rfl
            have hrbcB : readPairsN gc
                (hA.set a0 (Obj.node (setEntryH curA k v'))) curA =
                some psCur := by
              refine readPairsN_set_frame gc hA a0 _ curA psCur ?_
                (readPairsN_ext gc hh hA curA psCur hextA hrbc)
              intro q hq
              exact hcurnr q.2 (List.mem_map_of_mem _ hq)
            have hgvB : readBackN gv
                (hA.set a0 (Obj.node (setEntryH curA k v'))) v' = some pv₀ :=
              readBackN_set_frame gv hA a0 _ v' pv₀ avoidV' hgv
            have hsingle : readPairsN (gv + 2)
                (hA.set a0 (Obj.node (setEntryH curA k v'))) [(k, v')] =
                some [(k, pv₀)] := by
              rw [readPairsN, readBackN_mono _ _ _ _ hgvB]
              dsimp only [bind, Option.bind]
              rw [readPairsN]
            have hrbcB' : readPairsN (gc + (gv + 2))
                (hA.set a0 (Obj.node (setEntryH curA k v')))
                (curA ++ [(k, v')]) = some (psCur ++ [(k, pv₀)]) :=
              readPairsN_append hrbcB hsingle
            have hrestB : readPairsN g₀
                (hA.set a0 (Obj.node (setEntryH curA k v'))) rest =
                some psr := by
              refine readPairsN_set_frame g₀ hA a0 _ rest psr hrestnr
                (readPairsN_ext g₀ hh hA rest psr hextA hrestes)
            have hkne : ∀ q ∈ rest, ¬ (k = q.1) := by
              intro q hq he
              have h1 : k ∉ rest.map (·.1) := getEntryH_eq_none_iff.mp hkabs
              exact h1 (he ▸ List.mem_map_of_mem _ hq)
            obtain ⟨newEs, g', hnew, hkeys, hrbN⟩ :=
              hcondI (curA ++ [(k, v')]) (psCur ++ [(k, pv₀)]) psr g₀
                (gc + (gv + 2))
                (by rw [List.get?_set_eq_of_lt _ hlenA, hsetapp])
                hndr
                (by
                  intro q hq
                  rw [getEntryH_append_none (hdisj q (List.mem_cons_of_mem _ hq))]
                  simp [getEntryH, hkne q hq])
                (by
                  intro w hw x hre
                  simp only [Obj.vals, List.map_append, List.map_cons,
                    List.map_nil, List.mem_append] at hw
                  rcases hw with hw | hw
                  · have hnra : ¬ ReachV hA w a0 :=
                      hcurnr w (by simpa [Obj.vals] using hw)
                    have hreA : ReachV hA w x := reach_set_frame hre hnra
                    obtain ⟨⟨kw, vw⟩, hqm, rfl⟩ := List.mem_map.mp hw
                    obtain ⟨pw, hpw⟩ :=
                      readPairsN_mem gc hh curA psCur hrbc _ hqm
                    exact havoid _ (by simpa [Obj.vals] using hw) x
                      (reach_down hreA hextA ⟨gc, pw, hpw⟩).1
                  · simp only [List.mem_singleton] at hw
                    subst hw
                    have hreA : ReachV hA w x := reach_set_frame hre avoidV'
                    have := reach_region hNCtop hreA hfrA
                    exact (Nat.ne_of_lt (Nat.lt_of_lt_of_le ha0 this)).symm)
                (by
                  intro q hq x hre
                  have hnra : ¬ ReachV hA q.2 a0 := hrestnr q hq
                  have hreA : ReachV hA q.2 x := reach_set_frame hre hnra
                  obtain ⟨pw, hpw⟩ :=
                    readPairsN_mem g₀ hh rest psr hrestes q hq
                  exact hesavoid q (List.mem_cons_of_mem _ hq) x
                    (reach_down hreA hextA ⟨g₀, pw, hpw⟩).1)
                hrbcB' hrestB
            refine ⟨newEs, g', hnew, ?_, ?_⟩
            · rw [hkeys]
              simp
            · rw [hrbN]
              simp
end

mutual
/-- Specification of the heap-model `to_dict` on a node address: the heap
only grows, and the returned plain-dict reference reads back to the same
pure shape as the node did. -/
theorem toDictH_spec : ∀ f h a rv h₁, toDictH f h a = some (rv, h₁) →
    HExt h h₁ ∧
    (∀ g pv, readBackN g h (.ref a) = some pv →
      ∃ g', readBackN g' h₁ rv = some pv)
  | 0, _, _, _, _, hr => by simp [toDictH] at hr
  | f + 1, h, a, rv, h₁, hr => by
      rw [toDictH] at hr
      cases hget : h.get? a with
      | none => rw [hget] at hr; exact absurd hr (by simp)
      | some o =>
          rw [hget] at hr
          cases o with
          | raw es => exact absurd hr (by simp)
          | arr xs => exact absurd hr (by simp)
          | tup xs => exact absurd hr (by simp)
          | node es =>
              dsimp only at hr
              obtain ⟨⟨fs, h₂⟩, hents, hr⟩ := optBind_ok hr
              cases hr
              obtain ⟨hext₂, hkeys, hprs⟩ :=
                toDictEntriesH_spec f h es fs h₂ hents
              refine ⟨HExt_trans hext₂ (HExt_append h₂ [.raw fs]), ?_⟩
              intro g pv hrb
              obtain ⟨hnd, g₀, ps, hps, rfl⟩ := readBackN_node_inv hrb hget
              obtain ⟨g₂, hps₂⟩ := hprs g₀ ps hps
              refine ⟨g₂ + 1, ?_⟩
              have hndf : keysND fs = true := (keysND_congr hkeys).trans hnd
              rw [readBackN, List.get?_concat_length]
              dsimp only
              rw [if_pos hndf, readPairsN_ext g₂ h₂ (h₂ ++ [Obj.raw fs]) fs ps
                (HExt_append h₂ [Obj.raw fs]) hps₂]
              rfl

/-- The item loop of `to_dict` keeps the key list and preserves the pure
readback of the values. -/
theorem toDictEntriesH_spec : ∀ f h es fs h₁,
    toDictEntriesH f h es = some (fs, h₁) →
    HExt h h₁ ∧ fs.map (·.1) = es.map (·.1) ∧
    (∀ g ps, readPairsN g h es = some ps →
      ∃ g', readPairsN g' h₁ fs = some ps)
  | 0, _, _, _, _, hr => by simp [toDictEntriesH] at hr
  | f + 1, h, [], fs, h₁, hr => by
      rw [toDictEntriesH] at hr
      cases hr
      refine ⟨HExt_refl h, rfl, ?_⟩
      intro g ps hrb
      cases readPairsN_nil_inv hrb
      exact ⟨1, rfl⟩
  | f + 1, h, (k, v) :: rest, fs, h₁, hr => by
      rw [toDictEntriesH] at hr
      obtain ⟨⟨v₂, hA⟩, hv, hr⟩ := optBind_ok hr
      obtain ⟨⟨fs₂, hB⟩, hrest, hr⟩ := optBind_ok hr
      cases hr
      obtain ⟨hextV, hrbV⟩ := toDictValH_spec f h v v₂ hA hv
      obtain ⟨hextR, hkeysR, hprsR⟩ :=
        toDictEntriesH_spec f hA rest fs₂ h₁ hrest
      refine ⟨HExt_trans hextV hextR, by simp [hkeysR], ?_⟩
      intro g ps hrb
      obtain ⟨g₀, pv, psr, rfl, hpv, hpsr, rfl⟩ := readPairsN_cons_inv hrb
      obtain ⟨gv, hgv⟩ := hrbV g₀ pv hpv
      obtain ⟨gr, hgr⟩ :=
        hprsR g₀ psr (readPairsN_ext g₀ h hA rest psr hextV hpsr)
      refine ⟨max gv gr + 1, ?_⟩
      rw [readPairsN, readBackN_mono_le h₁ v₂ pv (Nat.le_max_left gv gr)
        (readBackN_ext gv hA h₁ v₂ pv hextR hgv)]
      dsimp only [bind, Option.bind]
      rw [readPairsN_mono_le h₁ fs₂ psr (Nat.le_max_right gv gr) hgr]

/-- One value of `to_dict`: the heap only grows and the pure readback of
the produced value equals that of the input value. -/
theorem toDictValH_spec : ∀ f h v v₁ h₁, toDictValH f h v = some (v₁, h₁) →
    HExt h h₁ ∧
    (∀ g pv, readBackN g h v = some pv →
      ∃ g', readBackN g' h₁ v₁ = some pv)
  | 0, _, _, _, _, hr => by simp [toDictValH] at hr
  | f + 1, h, v, v₁, h₁, hr => by
      cases v with
      | hint i =>
          simp only [toDictValH, Option.some.injEq, Prod.mk.injEq] at hr
          obtain ⟨rfl, rfl⟩ := hr
          exact ⟨HExt_refl h, fun g pv hg => ⟨g, hg⟩⟩
      | hstr s =>
          simp only [toDictValH, Option.some.injEq, Prod.mk.injEq] at hr
          obtain ⟨rfl, rfl⟩ := hr
          exact ⟨HExt_refl h, fun g pv hg => ⟨g, hg⟩⟩
      | hbool b =>
          simp only [toDictValH, Option.some.injEq, Prod.mk.injEq] at hr
          obtain ⟨rfl, rfl⟩ := hr
          exact ⟨HExt_refl h, fun g pv hg => ⟨g, hg⟩⟩
      | hnone =>
          simp only [toDictValH, Option.some.injEq, Prod.mk.injEq] at hr
          obtain ⟨rfl, rfl⟩ := hr
          exact ⟨HExt_refl h, fun g pv hg => ⟨g, hg⟩⟩
      | ref p =>
          rw [toDictValH] at hr
          cases hget : h.get? p with
          | none => rw [hget] at hr; exact absurd hr (by simp)
          | some o =>
              rw [hget] at hr
              cases o with
              | node es =>
                  dsimp only at hr
                  exact toDictH_spec f h p v₁ h₁ hr
              | raw es =>
                  dsimp only at hr
                  cases hr
                  exact ⟨HExt_refl h, fun g pv hg => ⟨g, hg⟩⟩
              | arr xs =>
                  dsimp only at hr
                  obtain ⟨⟨ys, h₂⟩, hel, hr⟩ := optBind_ok hr
                  cases hr
                  obtain ⟨hext₂, hprs⟩ := toDictElemsH_spec f h xs ys h₂ hel
                  refine ⟨HExt_trans hext₂ (HExt_append h₂ [.arr ys]), ?_⟩
                  intro g pv hrb
                  obtain ⟨g₀, ps, hps, rfl⟩ := readBackN_arr_inv hrb hget
                  obtain ⟨g₂, hps₂⟩ := hprs g₀ ps hps
                  refine ⟨g₂ + 1, ?_⟩
                  rw [readBackN, List.get?_concat_length]
                  dsimp only
                  rw [readElemsN_ext g₂ h₂ (h₂ ++ [Obj.arr ys]) ys ps
                    (HExt_append h₂ [Obj.arr ys]) hps₂]
                  rfl
              | tup xs =>
                  dsimp only at hr
                  obtain ⟨⟨ys, h₂⟩, hel, hr⟩ := optBind_ok hr
                  cases hr
                  obtain ⟨hext₂, hprs⟩ := toDictElemsH_spec f h xs ys h₂ hel
                  refine ⟨HExt_trans hext₂ (HExt_append h₂ [.tup ys]), ?_⟩
                  intro g pv hrb
                  obtain ⟨g₀, ps, hps, rfl⟩ := readBackN_tup_inv hrb hget
                  obtain ⟨g₂, hps₂⟩ := hprs g₀ ps hps
                  refine ⟨g₂ + 1, ?_⟩
                  rw [readBackN, List.get?_concat_length]
                  dsimp only
                  rw [readElemsN_ext g₂ h₂ (h₂ ++ [Obj.tup ys]) ys ps
                    (HExt_append h₂ [Obj.tup ys]) hps₂]
                  rfl

/-- The element loop of the sequence case of `to_dict`: the heap only
grows and the pure readback of each element is preserved, whether the
element is converted or shared. -/
theorem toDictElemsH_spec : ∀ f h xs ys h₁,
    toDictElemsH f h xs = some (ys, h₁) →
    HExt h h₁ ∧
    (∀ g ps, readElemsN g h xs = some ps →
      ∃ g', readElemsN g' h₁ ys = some ps)
  | 0, _, _, _, _, hr => by simp [toDictElemsH] at hr
  | f + 1, h, [], ys, h₁, hr => by
      rw [toDictElemsH] at hr
      cases hr
      refine ⟨HExt_refl h, ?_⟩
      intro g ps hrb
      cases readElemsN_nil_inv hrb
      exact ⟨1, rfl⟩
  | f + 1, h, x :: xs, ys, h₁, hr => by
      have hshare : ∀ ys₁ hh₁,
          (do
            let (ys₂, h₂) ← toDictElemsH f h xs
            some (x :: ys₂, h₂)) = some (ys₁, hh₁) →
          HExt h hh₁ ∧
          (∀ g ps, readElemsN g h (x :: xs) = some ps →
            ∃ g', readElemsN g' hh₁ ys₁ = some ps) := by
        intro ys₁ hh₁ hsh
        obtain ⟨⟨ys₂, h₂⟩, hrest, hsh⟩ := optBind_ok hsh
        cases hsh
        obtain ⟨hextR, hprsR⟩ := toDictElemsH_spec f h xs ys₂ hh₁ hrest
        refine ⟨hextR, ?_⟩
        intro g ps hrb
        obtain ⟨g₀, pv, psr, rfl, hpv, hpsr, rfl⟩ := readElemsN_cons_inv hrb
        obtain ⟨gr, hgr⟩ := hprsR g₀ psr hpsr
        refine ⟨max g₀ gr + 1, ?_⟩
        rw [readElemsN, readBackN_mono_le hh₁ x pv (Nat.le_max_left g₀ gr)
          (readBackN_ext g₀ h hh₁ x pv hextR hpv)]
        dsimp only [bind, Option.bind]
        rw [readElemsN_mono_le hh₁ ys₂ psr (Nat.le_max_right g₀ gr) hgr]
      cases x with
      | hint i => simp only [toDictElemsH] at hr; exact hshare ys h₁ hr
      | hstr s => simp only [toDictElemsH] at hr; exact hshare ys h₁ hr
      | hbool b => simp only [toDictElemsH] at hr; exact hshare ys h₁ hr
      | hnone => simp only [toDictElemsH] at hr; exact hshare ys h₁ hr
      | ref p =>
          rw [toDictElemsH] at hr
          cases hget : h.get? p with
          | none =>
              rw [hget] at hr
              exact hshare ys h₁ hr
          | some o =>
              rw [hget] at hr
              cases o with
              | raw es => exact hshare ys h₁ hr
              | arr zs => exact hshare ys h₁ hr
              | tup zs => exact hshare ys h₁ hr
              | node es =>
                  dsimp only at hr
                  obtain ⟨⟨y, hA⟩, hd, hr⟩ := optBind_ok hr
                  obtain ⟨⟨ys₂, h₂⟩, hrest, hr⟩ := optBind_ok hr
                  cases hr
                  obtain ⟨hextD, hrbD⟩ := toDictH_spec f h p y hA hd
                  obtain ⟨hextR, hprsR⟩ :=
                    toDictElemsH_spec f hA xs ys₂ h₂ hrest
                  refine ⟨HExt_trans hextD hextR, ?_⟩
                  intro g ps hrb
                  obtain ⟨g₀, pv, psr, rfl, hpv, hpsr, rfl⟩ :=
                    readElemsN_cons_inv hrb
                  obtain ⟨gy, hgy⟩ := hrbD g₀ pv hpv
                  obtain ⟨gr, hgr⟩ :=
                    hprsR g₀ psr (readElemsN_ext g₀ h hA xs psr hextD hpsr)
                  refine ⟨max gy gr + 1, ?_⟩
                  rw [readElemsN, readBackN_mono_le h₂ y pv
                    (Nat.le_max_left gy gr)
                    (readBackN_ext gy hA h₂ y pv hextR hgy)]
                  dsimp only [bind, Option.bind]
                  rw [readElemsN_mono_le h₂ ys₂ psr
                    (Nat.le_max_right gy gr) hgr]
end

/-- A sample heap: a `Dict` at address 0 holding a scalar and a nested
`Dict` whose value is a list. -/
def hC8 : Heap :=
  [Obj.node [("x", .hint 1), ("y", .ref 1)],
   Obj.node [("z", .ref 2)],
   Obj.arr [.hint 7]]

/-- The pure shape of the sample heap read from address 0. -/
def pvC8 : PV :=
  .pmap [("x", .pint 1), ("y", .pmap [("z", .parr [.pint 7])])]

/-- The heap after `copy` of the node at address 0 of the sample heap. -/
def hC8c : Heap :=
  [Obj.node [("x", .hint 1), ("y", .ref 1)],
   Obj.node [("z", .ref 2)],
   Obj.arr [.hint 7],
   Obj.arr [.hint 7],
   Obj.raw [("z", .ref 3)],
   Obj.raw [("x", .hint 1), ("y", .ref 4)],
   Obj.node [("x", .hint 1), ("y", .ref 7)],
   Obj.node [("z", .ref 8)],
   Obj.arr [.hint 7]]

/-- C8: `copy` is `Dict(self.to_dict())`; on a node whose pure shape is
readable, it returns a duplicate that reads back to the same pure shape,
never touches an existing heap cell, and is fully disconnected from the
original: the original reaches only pre-existing addresses, the copy
reaches only fresh addresses, so the two share no container, and mutating
any container reachable from either side leaves the pure shape read
through the other side unchanged. -/
theorem claim_C8 (f g : Nat) (h : Heap) (a : Addr) (pv : PV) (rv : HVal)
    (h₂ : Heap)
    (hrb : readBackN g h (.ref a) = some pv)
    (hcp : copyH f h a = some (rv, h₂)) :
    HExt h h₂ ∧
    (∃ g₁, readBackN g₁ h₂ (.ref a) = some pv) ∧
    (∃ g₂, readBackN g₂ h₂ rv = some pv) ∧
    (∀ x, ReachV h₂ (.ref a) x → x < h.length) ∧
    (∀ x, ReachV h₂ rv x → h.length ≤ x) ∧
    (∀ x, ¬ (ReachV h₂ (.ref a) x ∧ ReachV h₂ rv x)) ∧
    (∀ x o, ReachV h₂ rv x →
      ∃ g₁, readBackN g₁ (h₂.set x o) (.ref a) = some pv) ∧
    (∀ x o, ReachV h₂ (.ref a) x →
      ∃ g₂, readBackN g₂ (h₂.set x o) rv = some pv) := by
  match f, hcp with
  | 0, hcp => simp [copyH] at hcp
  | f₁ + 1, hcp => ?_
  rw [copyH] at hcp
  obtain ⟨⟨rv₁, hm⟩, htd, hcp⟩ := optBind_ok hcp
  obtain ⟨hext₁, hrb₁⟩ := toDictH_spec f₁ h a rv₁ hm htd
  cases rv₁ with
  | hint i => exact absurd hcp (by simp)
  | hstr s => exact absurd hcp (by simp)
  | hbool b => exact absurd hcp (by simp)
  | hnone => exact absurd hcp (by simp)
  | ref rb =>
      dsimp only at hcp
      cases hget : hm.get? rb with
      | none => rw [hget] at hcp; exact absurd hcp (by simp)
      | some o =>
          rw [hget] at hcp
          cases o with
          | node es => exact absurd hcp (by simp)
          | arr xs => exact absurd hcp (by simp)
          | tup xs => exact absurd hcp (by simp)
          | raw es =>
          dsimp only at hcp
          obtain ⟨hrveq, hext₂, hnc₂, hrbC⟩ :=
            constructH_spec f₁ hm es rv h₂ hcp
          subst hrveq
          obtain ⟨g₁, hg₁⟩ := hrb₁ g pv hrb
          obtain ⟨hnd, g₀, ps, hps, rfl⟩ := readBackN_raw_inv hg₁ hget
          obtain ⟨g₂, hg₂⟩ := hrbC g₀ ps hnd hps
          have hextA : HExt h h₂ := HExt_trans hext₁ hext₂
          have hga2 : readBackN g h₂ (.ref a) = some (.pmap ps) :=
            readBackN_ext g h h₂ _ _ hextA hrb
          have horig : ∀ x, ReachV h₂ (.ref a) x → x < h.length :=
            fun x hx => (reach_down hx hextA ⟨g, _, hrb⟩).2
          have hcopy : ∀ x, ReachV h₂ (.ref hm.length) x → h.length ≤ x := by
            intro x hx
            have h5 : hm.length ≤ x :=
              reach_region (hnc₂ hm.length (Nat.le_refl _) (NewCl_top hm)) hx
                (fun b hb => by cases hb; exact Nat.le_refl _)
            exact Nat.le_trans hext₁.1 h5
          have hdisj : ∀ x,
              ¬ (ReachV h₂ (.ref a) x ∧ ReachV h₂ (.ref hm.length) x) :=
            fun x hc =>
              absurd (horig x hc.1) (Nat.not_lt.mpr (hcopy x hc.2))
          refine ⟨hextA, ⟨g, hga2⟩, ⟨g₂, hg₂⟩, horig, hcopy, hdisj, ?_, ?_⟩
          · intro x o hx
            exact ⟨g, readBackN_set_frame g h₂ x o _ _
              (fun hc => hdisj x ⟨hc, hx⟩) hga2⟩
          · intro x o hx
            exact ⟨g₂, readBackN_set_frame g₂ h₂ x o _ _
              (fun hc => hdisj x ⟨hx, hc⟩) hg₂⟩

/-- C8 witness: copying the sample heap node at address 0 with fuel 20
produces the reference to address 6 in the extended heap, and all the
disconnection conclusions hold there. -/
theorem claim_C8_witness :
    HExt hC8 hC8c ∧
    (∃ g₁, readBackN g₁ hC8c (.ref 0) = some pvC8) ∧
    (∃ g₂, readBackN g₂ hC8c (.ref 6) = some pvC8) ∧
    (∀ x, ReachV hC8c (.ref 0) x → x < hC8.length) ∧
    (∀ x, ReachV hC8c (.ref 6) x → hC8.length ≤ x) ∧
    (∀ x, ¬ (ReachV hC8c (.ref 0) x ∧ ReachV hC8c (.ref 6) x)) ∧
    (∀ x o, ReachV hC8c (.ref 6) x →
      ∃ g₁, readBackN g₁ (hC8c.set x o) (.ref 0) = some pvC8) ∧
    (∀ x o, ReachV hC8c (.ref 0) x →
      ∃ g₂, readBackN g₂ (hC8c.set x o) (.ref 6) = some pvC8) :=
  claim_C8 20 9 hC8 0 pvC8 (.ref 6) hC8c (by rfl) (by rfl)
